import Mathlib

/-!
Shallow embedding of the TTLCache repository (Go) in Lean 4.

Modelling conventions:
* Instants (`time.Time`) and durations (`time.Duration`) are integers, thought
  of as nanoseconds.  The Go zero `time.Time` (for which `IsZero()` is true) is
  modelled by the integer `0`; real clock readings are positive.  `t.Before(u)`
  is `t < u`, `t.Add(d)` is `t + d`, `time.Until(t)` at instant `now` is
  `t - now`.
* Go `*Item` pointers are modelled by allocation identifiers (`ItemId`,
  a natural number) together with a memory `Mem : ItemId → Item` mapping each
  identifier to the current field values of the pointed-to object.  Both the
  cache's key map and the priority queue store identifiers, so aliasing of the
  same object from both containers is represented faithfully.
* The lock-protected critical sections of the Go code run at a single frozen
  instant `now`; each operation takes `now` as an explicit argument.
* `container/heap`'s `up` and `down` loops are given explicit fuel so that
  they are structurally recursive (hence computable by `decide`/`rfl`); the
  wrappers supply fuel that provably suffices.
* The Go slice accesses of the expiration-processing loop are modelled with an
  explicit bounds check that reports an out-of-range access (which in Go is a
  runtime panic) instead of performing it.
-/

namespace TTLCache

/-- Allocation identifier standing for a Go `*Item` pointer. -/
abbrev ItemId := Nat

/-- The `Item` struct of the repository: key, payload, TTL, absolute
expiration instant, and the index of the item inside the priority queue.
`ExpireAt = 0` models the zero `time.Time` (unset). -/
structure Item where
  key : String
  data : Int
  TTL : Int
  ExpireAt : Int
  queueIndex : Int
deriving DecidableEq, Repr

/-- `ItemNotExpire` sentinel (`time.Duration = -1`). -/
def ItemNotExpire : Int := -1

/-- `ItemExpireWithGlobalTTL` sentinel (`time.Duration = 0`). -/
def ItemExpireWithGlobalTTL : Int := 0

/-- `Item.touch`: if `TTL > 0`, set `ExpireAt` to `now + TTL`, else no-op. -/
def Item.touch (now : Int) (it : Item) : Item :=
  if 0 < it.TTL then { it with ExpireAt := now + it.TTL } else it

/-- `Item.expired`: `TTL <= 0` is never expired; otherwise expired iff
`ExpireAt.Before(now)`. -/
def Item.expired (now : Int) (it : Item) : Bool :=
  if it.TTL ≤ 0 then false else decide (it.ExpireAt < now)

/-- `newItem`: fresh item (zero-valued `ExpireAt` and `queueIndex`), touched
at construction. -/
def newItem (now : Int) (key : String) (data : Int) (ttl : Int) : Item :=
  Item.touch now { key := key, data := data, TTL := ttl, ExpireAt := 0, queueIndex := 0 }

/-- The heap memory: current field values of every allocated `Item`. -/
abbrev Mem := ItemId → Item

/-- Overwrite the object behind one identifier. -/
def memSet (m : Mem) (id : ItemId) (it : Item) : Mem :=
  fun x => if x = id then it else m x

/-- Write the `queueIndex` field of one object (as `pq.Swap` and
`priorityQueue.Pop` do). -/
def setIndexMem (m : Mem) (id : ItemId) (v : Int) : Mem :=
  memSet m id { m id with queueIndex := v }

/-- The body of `priorityQueue.Less` on two resolved items: an item with zero
(unset) `ExpireAt` is never less than anything; a set item is less than an
unset one; two set items compare by `ExpireAt.Before`. -/
def itemLess (a b : Item) : Bool :=
  if a.ExpireAt = 0 then false
  else if b.ExpireAt = 0 then true
  else decide (a.ExpireAt < b.ExpireAt)

/-- The identifier stored at position `i` of the queue's slice. -/
def idAt (q : List ItemId) (i : Nat) : ItemId := q.getD i 0

/-- `pq.Less i j` reading the two slice slots through memory. -/
def pqLess (m : Mem) (q : List ItemId) (i j : Nat) : Bool :=
  itemLess (m (idAt q i)) (m (idAt q j))

/-- Heap index of the parent of node `j` (Go `(j - 1) / 2`; at `j = 0` this is
`0` again, matching Go's `i == j` loop exit). -/
def par (j : Nat) : Nat := (j - 1) / 2

/-- `pq.Swap i j`: swap the two slice slots, then write `queueIndex := i` into
the item now at `i` and `queueIndex := j` into the item now at `j`. -/
def pqSwap (m : Mem) (q : List ItemId) (i j : Nat) : Mem × List ItemId :=
  let a := idAt q i
  let b := idAt q j
  ((setIndexMem (setIndexMem m b (Int.ofNat i)) a (Int.ofNat j)),
   (q.set i b).set j a)

/-- `container/heap.up`, with explicit fuel (the loop moves strictly towards
the root, so fuel `j + 1` always suffices). -/
def upFuel : Nat → Mem → List ItemId → Nat → Mem × List ItemId
  | 0, m, q, _ => (m, q)
  | fuel + 1, m, q, j =>
    let i := par j
    if i = j ∨ pqLess m q j i = false then (m, q)
    else
      let p := pqSwap m q i j
      upFuel fuel p.1 p.2 i

/-- `container/heap.up`. -/
def heapUp (m : Mem) (q : List ItemId) (j : Nat) : Mem × List ItemId :=
  upFuel (j + 1) m q j

/-- `container/heap.down`, with explicit fuel (each iteration moves to a child,
so fuel `n` always suffices).  Returns the final position `i` as well; Go's
boolean result is `i > i0`. -/
def downFuel : Nat → Mem → List ItemId → Nat → Nat → Mem × List ItemId × Nat
  | 0, m, q, i, _ => (m, q, i)
  | fuel + 1, m, q, i, n =>
    let j1 := 2 * i + 1
    if n ≤ j1 then (m, q, i)
    else
      let j := if 2 * i + 2 < n ∧ pqLess m q (2 * i + 2) j1 = true then 2 * i + 2 else j1
      if pqLess m q j i = false then (m, q, i)
      else
        let p := pqSwap m q i j
        downFuel fuel p.1 p.2 j n

/-- `container/heap.down`. -/
def heapDown (m : Mem) (q : List ItemId) (i n : Nat) : Mem × List ItemId × Nat :=
  downFuel n m q i n

/-- The `Pop` method of the `heap.Interface` implementation: detach the last
slice element, setting its `queueIndex` to `-1`. -/
def interfacePop (m : Mem) (q : List ItemId) : ItemId × Mem × List ItemId :=
  let n := q.length - 1
  let id := idAt q n
  (id, setIndexMem m id (-1), q.take n)

/-- `container/heap.Push` (as invoked by `priorityQueue.push`): the
`Interface.Push` method appends the item with `queueIndex := len`, then the
package sifts it up from the last position. -/
def heapPushGo (m : Mem) (q : List ItemId) (id : ItemId) : Mem × List ItemId :=
  let m1 := setIndexMem m id (Int.ofNat q.length)
  heapUp m1 (q ++ [id]) q.length

/-- `container/heap.Pop`: swap head and last, sift the new head down over the
shortened prefix, then detach the last element. -/
def heapPopGo (m : Mem) (q : List ItemId) : ItemId × Mem × List ItemId :=
  let n := q.length - 1
  let p := pqSwap m q 0 n
  let r := heapDown p.1 p.2 0 n
  interfacePop r.1 r.2.1

/-- `container/heap.Remove` at index `i`: if `i` is not the last position,
swap with the last, then `down`; if `down` did not move, `up`; finally detach
the last element. -/
def heapRemoveGo (m : Mem) (q : List ItemId) (i : Nat) : ItemId × Mem × List ItemId :=
  let n := q.length - 1
  if i = n then interfacePop m q
  else
    let p := pqSwap m q i n
    let r := heapDown p.1 p.2 i n
    let s := if r.2.2 = i then heapUp r.1 r.2.1 i else (r.1, r.2.1)
    interfacePop s.1 s.2

/-- `container/heap.Fix` at index `i`: `down` over the whole slice, and if it
did not move, `up`. -/
def heapFixGo (m : Mem) (q : List ItemId) (i : Nat) : Mem × List ItemId :=
  let r := heapDown m q i q.length
  if r.2.2 = i then heapUp r.1 r.2.1 i else (r.1, r.2.1)

/-- `priorityQueue.push item`. -/
def pqPush (m : Mem) (q : List ItemId) (id : ItemId) : Mem × List ItemId :=
  heapPushGo m q id

/-- `priorityQueue.pop`: `nil` on an empty queue, otherwise `heap.Pop`. -/
def pqPop (m : Mem) (q : List ItemId) : Option ItemId × Mem × List ItemId :=
  if q.length = 0 then (none, m, q)
  else
    let r := heapPopGo m q
    (some r.1, r.2.1, r.2.2)

/-- `priorityQueue.remove item`: `heap.Remove` at the item's recorded
`queueIndex`. -/
def pqRemoveItem (m : Mem) (q : List ItemId) (id : ItemId) : Mem × List ItemId :=
  let r := heapRemoveGo m q ((m id).queueIndex).toNat
  (r.2.1, r.2.2)

/-- `priorityQueue.update item`: `heap.Fix` at the item's recorded
`queueIndex`. -/
def pqUpdateItem (m : Mem) (q : List ItemId) (id : ItemId) : Mem × List ItemId :=
  heapFixGo m q ((m id).queueIndex).toNat

/-- The comparison key `priorityQueue.Less` realises: an unset `ExpireAt`
compares as `⊤`, a set one as itself.  `itemLess a b` is `keyOf a < keyOf b`
(proved below). -/
def keyOf (it : Item) : WithTop Int :=
  if it.ExpireAt = 0 then ⊤ else (it.ExpireAt : WithTop Int)

/-- Comparison key of the item stored at position `i`. -/
def keyAt (m : Mem) (q : List ItemId) (i : Nat) : WithTop Int :=
  keyOf (m (idAt q i))

/-- Two memories agreeing on every field except possibly `queueIndex`
(the only field the heap algorithms themselves write). -/
def sameFields (m m' : Mem) : Prop :=
  ∀ x, (m' x).key = (m x).key ∧ (m' x).data = (m x).data ∧
    (m' x).TTL = (m x).TTL ∧ (m' x).ExpireAt = (m x).ExpireAt

/-- Every slot's item records its own position (`heap_position` tracking). -/
def posOK (m : Mem) (q : List ItemId) : Prop :=
  ∀ i, i < q.length → (m (idAt q i)).queueIndex = Int.ofNat i

/-- Heap property over the first `n` slots: no node is `Less` than its
parent. -/
def heapUpTo (m : Mem) (q : List ItemId) (n : Nat) : Prop :=
  ∀ j, j < n → 0 < j → itemLess (m (idAt q j)) (m (idAt q (par j))) = false

/-- Heap property over the whole slice. -/
def heapOK (m : Mem) (q : List ItemId) : Prop :=
  heapUpTo m q q.length

/-- Well-formed priority queue: position tracking, heap property, and no slot
aliases another (distinct slots hold distinct pointers). -/
def wfPQ (m : Mem) (q : List ItemId) : Prop :=
  posOK m q ∧ heapOK m q ∧ q.Nodup

instance (m : Mem) (q : List ItemId) : Decidable (posOK m q) := by
  unfold posOK; exact Nat.decidableBallLT _ _

instance (m : Mem) (q : List ItemId) (n : Nat) : Decidable (heapUpTo m q n) := by
  unfold heapUpTo
  exact Nat.decidableBallLT n _

instance (m : Mem) (q : List ItemId) : Decidable (heapOK m q) := by
  unfold heapOK; infer_instance

instance (m : Mem) (q : List ItemId) : Decidable (wfPQ m q) := by
  unfold wfPQ; infer_instance

/-- The lock-protected state of a `Cache`: memory, the global TTL, the key
map (`items`), the priority queue's slice, the `skipTTLExtension` flag, the
recorded next wake instant (`expirationTime`), and an allocation counter for
fresh pointers. -/
structure CacheState where
  mem : Mem
  ttl : Int
  items : List (String × ItemId)
  pqItems : List ItemId
  skipTTLExtension : Bool
  expirationTime : Int
  nextId : ItemId

/-- Go map read `cache.items[key]`. -/
def mapGet (items : List (String × ItemId)) (key : String) : Option ItemId :=
  (items.find? fun p => p.1 = key).map Prod.snd

/-- Go map write `cache.items[key] = id` (overwrites an existing binding). -/
def mapSet (items : List (String × ItemId)) (key : String) (id : ItemId) :
    List (String × ItemId) :=
  match items with
  | [] => [(key, id)]
  | p :: rest => if p.1 = key then (key, id) :: rest else p :: mapSet rest key id

/-- Go map delete `delete(cache.items, key)`. -/
def mapDelete (items : List (String × ItemId)) (key : String) :
    List (String × ItemId) :=
  items.filter fun p => p.1 ≠ key

/-- `Cache.GetItem`: look up the key; a missing or time-expired entry is a
miss.  On a hit, when the entry is eligible for time-based expiry, promote a
zero TTL to a positive global TTL, touch unless `skipTTLExtension`, and fix up
the queue.  Returns the item (with `exists`), an early-wake flag, and the
mutated state. -/
def GetItem (now : Int) (c : CacheState) (key : String) :
    Option ItemId × Bool × CacheState :=
  match mapGet c.items key with
  | none => (none, false, c)
  | some id =>
    if (c.mem id).expired now then (none, false, c)
    else
      let c1 :=
        if 0 ≤ (c.mem id).TTL ∧ (0 < (c.mem id).TTL ∨ 0 < c.ttl) then
          let m1 := if 0 < c.ttl ∧ (c.mem id).TTL = 0 then
              memSet c.mem id { c.mem id with TTL := c.ttl } else c.mem
          let m2 := if c.skipTTLExtension = false then
              memSet m1 id (Item.touch now (m1 id)) else m1
          let p := pqUpdateItem m2 c.pqItems id
          { c with mem := p.1, pqItems := p.2 }
        else c
      (some id, decide (now + (c1.mem id).TTL < c1.expirationTime), c1)

/-- The `if item.TTL >= 0 && (item.TTL > 0 || cache.ttl > 0)` block of
`Cache.SetWithTTL` (lines 164–169): promote a zero TTL to a positive global
TTL, then touch.  The block only writes the one item's fields, so it is a
memory-to-memory function. -/
def setTTLBlockMem (now : Int) (gttl : Int) (m : Mem) (id : ItemId) : Mem :=
  if 0 ≤ (m id).TTL ∧ (0 < (m id).TTL ∨ 0 < gttl) then
    let m1 := if 0 < gttl ∧ (m id).TTL = 0 then
      memSet m id { m id with TTL := gttl } else m
    memSet m1 id (Item.touch now (m1 id))
  else m

/-- `Cache.SetWithTTL`: upsert through `GetItem`.  The boolean result records
whether the new-item notification fires (it does exactly when `GetItem`
reported the key as not existing). -/
def SetWithTTL (now : Int) (c : CacheState) (key : String) (data : Int)
    (ttl : Int) : CacheState × Bool :=
  let g := GetItem now c key
  let c1 := g.2.2
  let e := g.1
  let idc :=
    match e with
    | some id =>
      (id, { c1 with mem := memSet c1.mem id { c1.mem id with data := data, TTL := ttl } })
    | none =>
      (c1.nextId,
       { c1 with
           mem := memSet c1.mem c1.nextId (newItem now key data ttl),
           items := mapSet c1.items key c1.nextId,
           nextId := c1.nextId + 1 })
  let id := idc.1
  let c2 := idc.2
  let c3 := { c2 with mem := setTTLBlockMem now c2.ttl c2.mem id }
  let c4 :=
    if e.isSome then
      let p := pqUpdateItem c3.mem c3.pqItems id
      { c3 with mem := p.1, pqItems := p.2 }
    else
      let p := pqPush c3.mem c3.pqItems id
      { c3 with mem := p.1, pqItems := p.2 }
  (c4, !e.isSome)

/-- `Cache.Set`: `SetWithTTL` with the `ItemExpireWithGlobalTTL` sentinel. -/
def CacheSet (now : Int) (c : CacheState) (key : String) (data : Int) :
    CacheState × Bool :=
  SetWithTTL now c key data ItemExpireWithGlobalTTL

/-- `Cache.Remove`: a direct map lookup (no expiry check); when present,
delete the binding by the object's key and remove the object from the queue. -/
def Remove (c : CacheState) (key : String) : Bool × CacheState :=
  match mapGet c.items key with
  | none => (false, c)
  | some id =>
    let items1 := mapDelete c.items (c.mem id).key
    let p := pqRemoveItem c.mem c.pqItems id
    (true, { c with items := items1, mem := p.1, pqItems := p.2 })

/-- `Cache.GetTTL`: a `GetItem` whose hit result is the item's (possibly just
promoted) TTL. -/
def GetTTL (now : Int) (c : CacheState) (key : String) :
    Int × Bool × CacheState :=
  let g := GetItem now c key
  match g.1 with
  | some id => ((g.2.2.mem id).TTL, true, g.2.2)
  | none => (0, false, g.2.2)

/-- `Cache.Count`. -/
def Count (c : CacheState) : Nat := c.items.length

/-- `time.Microsecond` in nanoseconds. -/
def microsecondNS : Int := 1000

/-- `time.Hour` in nanoseconds. -/
def hourNS : Int := 3600000000000

/-- The repository's `min` helper on durations. -/
def goMin (a b : Int) : Int := if a < b then a else b

/-- The sleep-duration computation at the top of
`Cache.startExpirationProcessing` (lines 59–74). -/
def computeSleepTime (now : Int) (m : Mem) (q : List ItemId) (gttl : Int) : Int :=
  if 0 < q.length then
    let head := m (idAt q 0)
    let s1 := head.ExpireAt - now
    let s2 :=
      if s1 < 0 ∧ head.ExpireAt = 0 then hourNS
      else if s1 < 0 then microsecondNS
      else s1
    if 0 < gttl then goMin s2 gttl else s2
  else if 0 < gttl then gttl else hourNS

/-- Result of one timer-fire eviction pass: a normal end state (with the keys
whose expiration callback was dispatched), an out-of-range slice access
(a Go runtime panic), or fuel exhaustion of the model. -/
inductive PassOutcome where
  | normal (m : Mem) (items : List (String × ItemId)) (q : List ItemId)
      (evicted : List String)
  | oobAccess (i len : Nat)
  | outOfFuel

/-- The eviction loop of `Cache.startExpirationProcessing` (lines 93–117),
driven by a cursor `i`.  `cb` is the configured `checkExpireCallback` (it
receives the item's key and payload; `false` vetoes the eviction).  Every
`priorityQueue.items[i]` access is bounds-checked; Go panics where this model
returns `oobAccess`. -/
def passLoop (now : Int) (cb : Option (String → Int → Bool)) :
    Nat → Mem → List (String × ItemId) → List ItemId → List String → Nat →
    PassOutcome
  | 0, _, _, _, _, _ => .outOfFuel
  | fuel + 1, m, items, q, ev, i =>
    if i < q.length then
      let id := idAt q i
      let it := m id
      if it.expired now = false then .normal m items q ev
      else
        let keep : Bool := match cb with
          | some f => f it.key it.data = false
          | none => false
        if keep then
          let m1 := memSet m id (Item.touch now it)
          let p := pqUpdateItem m1 q id
          if i + 1 = p.2.length then .normal p.1 items p.2 ev
          else passLoop now cb fuel p.1 items p.2 ev (i + 1)
        else
          let p := pqRemoveItem m q id
          let items1 := mapDelete items it.key
          let ev1 := ev ++ [it.key]
          if p.2.length = 0 then .normal p.1 items1 p.2 ev1
          else passLoop now cb fuel p.1 items1 p.2 ev1 i
    else .oobAccess i q.length

/-- The timer-fire branch of the sweep loop (lines 87–119): nothing to do on
an empty queue, otherwise run the eviction loop from cursor `0`. -/
def sweepEvict (now : Int) (cb : Option (String → Int → Bool)) (fuel : Nat)
    (m : Mem) (items : List (String × ItemId)) (q : List ItemId) : PassOutcome :=
  if q.length = 0 then .normal m items q []
  else passLoop now cb fuel m items q [] 0

/-- Abstract operations on the expiration index for the heap-invariant claim:
pushing a fresh entry, popping the minimum, and removing or updating the entry
currently tracked at a given position (out-of-range positions are skipped,
encoding that removal/update is only applied to tracked entries). -/
inductive PQOp where
  | push (it : Item)
  | pop
  | removeAt (k : Nat)
  | updAt (k : Nat) (newExpireAt : Int)

/-- Driver state for sequences of index operations. -/
structure PQState where
  mem : Mem
  q : List ItemId
  nid : ItemId

/-- Apply one abstract index operation, through the repository's
`push`/`pop`/`remove`/`update` methods. -/
def applyOp (s : PQState) : PQOp → PQState
  | .push it =>
    let m1 := memSet s.mem s.nid it
    let p := pqPush m1 s.q s.nid
    ⟨p.1, p.2, s.nid + 1⟩
  | .pop =>
    let r := pqPop s.mem s.q
    ⟨r.2.1, r.2.2, s.nid⟩
  | .removeAt k =>
    if k < s.q.length then
      let p := pqRemoveItem s.mem s.q (idAt s.q k)
      ⟨p.1, p.2, s.nid⟩
    else s
  | .updAt k v =>
    if k < s.q.length then
      let id := idAt s.q k
      let m1 := memSet s.mem id { s.mem id with ExpireAt := v }
      let p := pqUpdateItem m1 s.q id
      ⟨p.1, p.2, s.nid⟩
    else s

/-- Run a sequence of abstract index operations from the empty index. -/
def runOps (ops : List PQOp) : PQState :=
  ops.foldl applyOp ⟨fun _ => { key := "", data := 0, TTL := 0, ExpireAt := 0, queueIndex := 0 }, [], 0⟩

/-- Well-formed cache state: the queue is well-formed, every allocated
identifier is below the allocation counter, every map binding points into the
queue at an object carrying the binding's key, and map keys are unique. -/
def wfCache (c : CacheState) : Prop :=
  wfPQ c.mem c.pqItems ∧
  (∀ id ∈ c.pqItems, id < c.nextId) ∧
  (∀ p ∈ c.items, p.2 ∈ c.pqItems ∧ (c.mem p.2).key = p.1) ∧
  (c.items.map Prod.fst).Nodup

instance (c : CacheState) : Decidable (wfCache c) := by
  unfold wfCache; infer_instance

/-- Heap property over the first `n` slots, in key form. -/
def heapKeyUpTo (m : Mem) (q : List ItemId) (n : Nat) : Prop :=
  ∀ j, j < n → 0 < j → keyAt m q (par j) ≤ keyAt m q j

/-- Heap property over the first `n` slots except possibly the edge from `j`
to its parent — the invariant of `container/heap.up`. -/
def heapExceptAt (m : Mem) (q : List ItemId) (n j : Nat) : Prop :=
  ∀ k, k < n → 0 < k → k ≠ j → keyAt m q (par k) ≤ keyAt m q k

/-- Heap property over the first `n` slots except possibly the edges incident
to node `i` (to its parent and from its children) — the invariant of
`container/heap.down`. -/
def heapExceptSub (m : Mem) (q : List ItemId) (n i : Nat) : Prop :=
  ∀ k, k < n → 0 < k → k ≠ i → par k ≠ i → keyAt m q (par k) ≤ keyAt m q k

/-- The grandparent of a disturbed node still bounds the node's children —
side condition letting a sift re-establish the edge above the node. -/
def childBound (m : Mem) (q : List ItemId) (n i : Nat) : Prop :=
  ∀ c, c < n → par c = i → keyAt m q (par i) ≤ keyAt m q c

/-! ### Concrete states for counterexamples and witnesses -/

/-- All-zero memory background. -/
def memBase : Mem := fun _ => { key := "", data := 0, TTL := 0, ExpireAt := 0, queueIndex := 0 }

/-- Key `"a"` present in the map but time-expired at instant `100`. -/
def cacheExpiredA : CacheState :=
  { mem := memSet memBase 0 { key := "a", data := 7, TTL := 1, ExpireAt := 1, queueIndex := 0 },
    ttl := 0, items := [("a", 0)], pqItems := [0],
    skipTTLExtension := false, expirationTime := 0, nextId := 1 }

/-- Key `"a"` present and alive at instant `100`. -/
def cacheAliveA : CacheState :=
  { mem := memSet memBase 0 { key := "a", data := 7, TTL := 50, ExpireAt := 150, queueIndex := 0 },
    ttl := 0, items := [("a", 0)], pqItems := [0],
    skipTTLExtension := false, expirationTime := 0, nextId := 1 }

/-- Memory for the eviction-pass crash: item `0` (key `"A"`) is expired and
will be vetoed; item `1` (key `"P"`) carries a positive TTL but an unset
`ExpireAt` (obtainable via the global-TTL promotion path with
`skipTTLExtension`). -/
def memSweep : Mem :=
  memSet (memSet memBase 0 { key := "A", data := 0, TTL := 1000, ExpireAt := 1, queueIndex := 0 })
    1 { key := "P", data := 0, TTL := 5, ExpireAt := 0, queueIndex := 1 }

/-- Conditional-eviction callback that vetoes `"A"` and evicts `"P"`. -/
def sweepCb : String → Int → Bool := fun k _ => k = "P"

/-- Entry with the "use global" sentinel under a positive global TTL. -/
def cacheGlobal : CacheState :=
  { mem := memSet memBase 0 { key := "g", data := 3, TTL := 0, ExpireAt := 0, queueIndex := 0 },
    ttl := 500, items := [("g", 0)], pqItems := [0],
    skipTTLExtension := false, expirationTime := 0, nextId := 1 }

/-- Two-entry heap used as a pop witness. -/
def memPop : Mem :=
  memSet (memSet memBase 0 { key := "x", data := 1, TTL := 5, ExpireAt := 10, queueIndex := 0 })
    1 { key := "y", data := 2, TTL := 5, ExpireAt := 20, queueIndex := 1 }

/-- Single entry whose deadline is exactly the current instant `100`. -/
def memDue : Mem :=
  memSet memBase 0 { key := "h", data := 0, TTL := 5, ExpireAt := 100, queueIndex := 0 }

/-! ### Heap index arithmetic -/

theorem par_lt {j : Nat} (h : 0 < j) : par j < j := by
  unfold par; omega

theorem par_le (j : Nat) : par j ≤ j := by
  unfold par; omega

theorem par_zero : par 0 = 0 := rfl

theorem par_eq_iff {c i : Nat} (h : 0 < c) : par c = i ↔ c = 2 * i + 1 ∨ c = 2 * i + 2 := by
  unfold par; omega

/-! ### The ordering function and its key -/

theorem itemLess_true_iff (a b : Item) : itemLess a b = true ↔ keyOf a < keyOf b := by
  unfold itemLess keyOf
  by_cases ha : a.ExpireAt = 0 <;> by_cases hb : b.ExpireAt = 0 <;>
    simp [ha, hb, WithTop.coe_lt_top, WithTop.coe_lt_coe]

theorem itemLess_false_iff (a b : Item) : itemLess a b = false ↔ keyOf b ≤ keyOf a := by
  rw [← not_lt, ← itemLess_true_iff]
  cases h : itemLess a b <;> simp [h]

theorem heapUpTo_iff (m : Mem) (q : List ItemId) (n : Nat) :
    heapUpTo m q n ↔ heapKeyUpTo m q n := by
  unfold heapUpTo heapKeyUpTo
  constructor <;> intro h j h1 h2
  · exact (itemLess_false_iff _ _).mp (h j h1 h2)
  · exact (itemLess_false_iff _ _).mpr (h j h1 h2)

/-! ### Memory lemmas -/

theorem memSet_same (m : Mem) (id : ItemId) (it : Item) : memSet m id it id = it := by
  simp [memSet]

theorem memSet_ne (m : Mem) (id : ItemId) (it : Item) {x : ItemId} (h : x ≠ id) :
    memSet m id it x = m x := by
  simp [memSet, h]

theorem keyOf_congr {a b : Item} (h : a.ExpireAt = b.ExpireAt) : keyOf a = keyOf b := by
  simp [keyOf, h]

theorem keyOf_setIndexMem (m : Mem) (id : ItemId) (v : Int) (x : ItemId) :
    keyOf (setIndexMem m id v x) = keyOf (m x) := by
  unfold setIndexMem
  by_cases h : x = id
  · subst h; rw [memSet_same]; exact keyOf_congr rfl
  · rw [memSet_ne _ _ _ h]

theorem sameFields_refl (m : Mem) : sameFields m m := by
  intro x; exact ⟨rfl, rfl, rfl, rfl⟩

theorem sameFields_trans {m m' m'' : Mem} (h1 : sameFields m m') (h2 : sameFields m' m'') :
    sameFields m m'' := by
  intro x
  obtain ⟨a1, b1, c1, d1⟩ := h1 x
  obtain ⟨a2, b2, c2, d2⟩ := h2 x
  exact ⟨a2.trans a1, b2.trans b1, c2.trans c1, d2.trans d1⟩

theorem sameFields_setIndexMem (m : Mem) (id : ItemId) (v : Int) :
    sameFields m (setIndexMem m id v) := by
  intro x
  unfold setIndexMem
  by_cases h : x = id
  · subst h; rw [memSet_same]; exact ⟨rfl, rfl, rfl, rfl⟩
  · rw [memSet_ne _ _ _ h]; exact ⟨rfl, rfl, rfl, rfl⟩

theorem sameFields_keyOf {m m' : Mem} (h : sameFields m m') (x : ItemId) :
    keyOf (m' x) = keyOf (m x) :=
  keyOf_congr (h x).2.2.2

theorem setIndexMem_same (m : Mem) (id : ItemId) (v : Int) :
    (setIndexMem m id v) id = { m id with queueIndex := v } := by
  unfold setIndexMem; rw [memSet_same]

theorem setIndexMem_ne (m : Mem) (id : ItemId) (v : Int) {x : ItemId} (h : x ≠ id) :
    (setIndexMem m id v) x = m x := by
  unfold setIndexMem; rw [memSet_ne _ _ _ h]

/-! ### Slot access lemmas -/

theorem idAt_eq_getElem (q : List ItemId) {i : Nat} (h : i < q.length) : idAt q i = q[i] :=
  List.getD_eq_getElem q 0 h

theorem idAt_mem (q : List ItemId) {i : Nat} (h : i < q.length) : idAt q i ∈ q := by
  rw [idAt_eq_getElem q h]; exact List.getElem_mem h

theorem idAt_default (q : List ItemId) {i : Nat} (h : q.length ≤ i) : idAt q i = 0 :=
  List.getD_eq_default q 0 h

theorem idAt_append_lt (q r : List ItemId) {i : Nat} (h : i < q.length) :
    idAt (q ++ r) i = idAt q i := by
  rw [idAt_eq_getElem _ (by simp; omega), idAt_eq_getElem q h]
  exact List.getElem_append_left h

theorem idAt_append_self (q : List ItemId) (id : ItemId) :
    idAt (q ++ [id]) q.length = id := by
  rw [idAt_eq_getElem _ (by simp)]
  simp

theorem idAt_take (q : List ItemId) {n i : Nat} (h : i < n) :
    idAt (q.take n) i = idAt q i := by
  by_cases hb : i < q.length
  · rw [idAt_eq_getElem _ (by simp; omega), idAt_eq_getElem q hb]
    simp [List.getElem_take]
  · rw [idAt_default _ (by simp; omega), idAt_default q (by omega)]

theorem list_set_getElem_self (l : List ItemId) {i : Nat} (h : i < l.length) :
    l.set i l[i] = l := by
  apply List.ext_getElem (by simp)
  intro k h1 h2
  by_cases hk : k = i
  · subst hk; exact List.getElem_set_self _
  · exact List.getElem_set_ne (fun he => hk he.symm) _

/-! ### Swap permutation helpers -/

theorem getD_cons_set_perm :
    ∀ (l : List ItemId) (j : Nat) (a : ItemId), j < l.length →
      (l.getD j 0 :: l.set j a).Perm (a :: l)
  | [], j, a, h => by simp at h
  | y :: t, 0, a, _ => by
    simpa using List.Perm.swap a y t
  | y :: t, j + 1, a, h => by
    have ih := getD_cons_set_perm t j a (by simpa using h)
    simp only [List.getD_cons_succ, List.set_cons_succ]
    exact (List.Perm.swap y (t.getD j 0) (t.set j a)).trans
      ((ih.cons y).trans (List.Perm.swap a y t))

theorem set_set_perm :
    ∀ (q : List ItemId) (i j : Nat), i < q.length → j < q.length → i ≠ j →
      ((q.set i (q.getD j 0)).set j (q.getD i 0)).Perm q
  | [], i, j, hi, _, _ => by simp at hi
  | x :: t, 0, 0, _, _, hij => absurd rfl hij
  | x :: t, 0, j + 1, _, hj, _ => by
    simpa using getD_cons_set_perm t j x (by simpa using hj)
  | x :: t, i + 1, 0, hi, _, _ => by
    simpa using getD_cons_set_perm t i x (by simpa using hi)
  | x :: t, i + 1, j + 1, hi, hj, hij => by
    have ih := set_set_perm t i j (by simpa using hi) (by simpa using hj)
      (by omega)
    simpa using ih.cons x

/-! ### Swap lemmas -/

theorem pqSwap_length (m : Mem) (q : List ItemId) (i j : Nat) :
    ((pqSwap m q i j).2).length = q.length := by
  simp [pqSwap]

theorem pqSwap_sameFields (m : Mem) (q : List ItemId) (i j : Nat) :
    sameFields m (pqSwap m q i j).1 := by
  unfold pqSwap
  exact sameFields_trans (sameFields_setIndexMem _ _ _) (sameFields_setIndexMem _ _ _)

theorem pqSwap_keyOf (m : Mem) (q : List ItemId) (i j : Nat) (x : ItemId) :
    keyOf ((pqSwap m q i j).1 x) = keyOf (m x) :=
  sameFields_keyOf (pqSwap_sameFields m q i j) x

theorem idAt_pqSwap_snd (m : Mem) (q : List ItemId) {i j : Nat} (hj : j < q.length) :
    idAt (pqSwap m q i j).2 j = idAt q i := by
  show idAt ((q.set i (idAt q j)).set j (idAt q i)) j = idAt q i
  rw [idAt_eq_getElem _ (by simpa using hj)]
  exact List.getElem_set_self _

theorem idAt_pqSwap_fst (m : Mem) (q : List ItemId) {i j : Nat} (hi : i < q.length)
    (hij : i ≠ j) : idAt (pqSwap m q i j).2 i = idAt q j := by
  show idAt ((q.set i (idAt q j)).set j (idAt q i)) i = idAt q j
  rw [idAt_eq_getElem _ (by simpa using hi)]
  rw [List.getElem_set_ne (fun he => hij he.symm) _]
  exact (List.getElem_set_self _).trans rfl

theorem idAt_pqSwap_other (m : Mem) (q : List ItemId) {i j k : Nat} (hk1 : k ≠ i)
    (hk2 : k ≠ j) : idAt (pqSwap m q i j).2 k = idAt q k := by
  show idAt ((q.set i (idAt q j)).set j (idAt q i)) k = idAt q k
  by_cases hb : k < q.length
  · rw [idAt_eq_getElem _ (by simpa using hb), idAt_eq_getElem q hb]
    rw [List.getElem_set_ne (fun he => hk2 he.symm) _]
    exact List.getElem_set_ne (fun he => hk1 he.symm) _
  · rw [idAt_default _ (by simp; omega), idAt_default q (by omega)]

theorem keyAt_pqSwap_fst (m : Mem) (q : List ItemId) {i j : Nat} (hi : i < q.length)
    (hij : i ≠ j) : keyAt (pqSwap m q i j).1 (pqSwap m q i j).2 i = keyAt m q j := by
  unfold keyAt
  rw [idAt_pqSwap_fst m q hi hij, pqSwap_keyOf]

theorem keyAt_pqSwap_snd (m : Mem) (q : List ItemId) {i j : Nat} (hj : j < q.length) :
    keyAt (pqSwap m q i j).1 (pqSwap m q i j).2 j = keyAt m q i := by
  unfold keyAt
  rw [idAt_pqSwap_snd m q hj, pqSwap_keyOf]

theorem keyAt_pqSwap_other (m : Mem) (q : List ItemId) {i j k : Nat} (hk1 : k ≠ i)
    (hk2 : k ≠ j) : keyAt (pqSwap m q i j).1 (pqSwap m q i j).2 k = keyAt m q k := by
  unfold keyAt
  rw [idAt_pqSwap_other m q hk1 hk2, pqSwap_keyOf]

theorem pqSwap_perm (m : Mem) (q : List ItemId) {i j : Nat} (hi : i < q.length)
    (hj : j < q.length) (hij : i ≠ j) : ((pqSwap m q i j).2).Perm q :=
  set_set_perm q i j hi hj hij

theorem pqSwap_nodup (m : Mem) (q : List ItemId) {i j : Nat} (hi : i < q.length)
    (hj : j < q.length) (hij : i ≠ j) (hnd : q.Nodup) : ((pqSwap m q i j).2).Nodup :=
  ((pqSwap_perm m q hi hj hij).nodup_iff).mpr hnd

theorem posOK_pqSwap (m : Mem) (q : List ItemId) {i j : Nat} (hnd : q.Nodup)
    (hi : i < q.length) (hj : j < q.length) (hij : i ≠ j) (hpos : posOK m q) :
    posOK (pqSwap m q i j).1 (pqSwap m q i j).2 := by
  have hab : idAt q i ≠ idAt q j := by
    rw [idAt_eq_getElem q hi, idAt_eq_getElem q hj]
    intro he
    exact hij ((List.Nodup.getElem_inj_iff hnd).mp he)
  intro k hk
  rw [pqSwap_length] at hk
  show ((setIndexMem (setIndexMem m (idAt q j) (Int.ofNat i)) (idAt q i) (Int.ofNat j))
      (idAt (pqSwap m q i j).2 k)).queueIndex = Int.ofNat k
  by_cases hkj : k = j
  · subst hkj
    rw [idAt_pqSwap_snd m q hj, setIndexMem_same]
  · by_cases hki : k = i
    · subst hki
      rw [idAt_pqSwap_fst m q hi hij, setIndexMem_ne _ _ _ (Ne.symm hab),
        setIndexMem_same]
    · rw [idAt_pqSwap_other m q hki hkj]
      have hc1 : idAt q k ≠ idAt q i := by
        rw [idAt_eq_getElem q hk, idAt_eq_getElem q hi]
        intro he
        exact hki ((List.Nodup.getElem_inj_iff hnd).mp he)
      have hc2 : idAt q k ≠ idAt q j := by
        rw [idAt_eq_getElem q hk, idAt_eq_getElem q hj]
        intro he
        exact hkj ((List.Nodup.getElem_inj_iff hnd).mp he)
      rw [setIndexMem_ne _ _ _ hc1, setIndexMem_ne _ _ _ hc2]
      exact hpos k hk

theorem pqSwap_self (m : Mem) (q : List ItemId) {i : Nat} (hpos : posOK m q)
    (hi : i < q.length) : pqSwap m q i i = (m, q) := by
  unfold pqSwap
  refine Prod.ext ?_ ?_
  · show setIndexMem (setIndexMem m (idAt q i) (Int.ofNat i)) (idAt q i) (Int.ofNat i) = m
    funext x
    by_cases h : x = idAt q i
    · subst h
      rw [setIndexMem_same, setIndexMem_same]
      have := hpos i hi
      show ({ m (idAt q i) with queueIndex := Int.ofNat i } : Item) = m (idAt q i)
      rw [← this]
    · rw [setIndexMem_ne _ _ _ h, setIndexMem_ne _ _ _ h]
  · show (q.set i (idAt q i)).set i (idAt q i) = q
    rw [List.set_set]
    rw [idAt_eq_getElem q hi]
    exact list_set_getElem_self q hi

/-! ### Sift-up correctness -/

theorem pqLess_true_iff (m : Mem) (q : List ItemId) (i j : Nat) :
    pqLess m q i j = true ↔ keyAt m q i < keyAt m q j :=
  itemLess_true_iff _ _

theorem pqLess_false_iff (m : Mem) (q : List ItemId) (i j : Nat) :
    pqLess m q i j = false ↔ keyAt m q j ≤ keyAt m q i :=
  itemLess_false_iff _ _

theorem par_eq_self_iff (j : Nat) : par j = j ↔ j = 0 := by
  unfold par; omega

theorem upFuel_succ (fuel : Nat) (m : Mem) (q : List ItemId) (j : Nat) :
    upFuel (fuel + 1) m q j =
      if par j = j ∨ pqLess m q j (par j) = false then (m, q)
      else upFuel fuel (pqSwap m q (par j) j).1 (pqSwap m q (par j) j).2 (par j) := rfl

theorem upFuel_spec :
    ∀ (fuel : Nat) (m : Mem) (q : List ItemId) (j n : Nat),
      j < fuel → n ≤ q.length → j < n → q.Nodup → posOK m q →
      heapExceptAt m q n j → (0 < j → childBound m q n j) →
      posOK (upFuel fuel m q j).1 (upFuel fuel m q j).2 ∧
      heapKeyUpTo (upFuel fuel m q j).1 (upFuel fuel m q j).2 n ∧
      ((upFuel fuel m q j).2).Perm q ∧
      sameFields m (upFuel fuel m q j).1 ∧
      (∀ k, n ≤ k → idAt (upFuel fuel m q j).2 k = idAt q k) ∧
      ((upFuel fuel m q j).2).length = q.length
  | 0, m, q, j, n, hf, _, _, _, _, _, _ => absurd hf (by omega)
  | fuel + 1, m, q, j, n, hf, hn, hj, hnd, hpos, hex, hgp => by
    have hjq : j < q.length := by omega
    by_cases hc : par j = j ∨ pqLess m q j (par j) = false
    · have hres : upFuel (fuel + 1) m q j = (m, q) := by
        rw [upFuel_succ, if_pos hc]
      rw [hres]
      refine ⟨hpos, ?_, List.Perm.refl q, sameFields_refl m, fun k _ => rfl, rfl⟩
      intro k hk hk0
      by_cases hkj : k = j
      · subst hkj
        rcases hc with h0 | hless
        · exact absurd ((par_eq_self_iff k).mp h0) (by omega)
        · exact (pqLess_false_iff m q k (par k)).mp hless
      · exact hex k hk hk0 hkj
    · have hpj : par j ≠ j := fun h => hc (Or.inl h)
      have hj0 : 0 < j := by
        rcases Nat.eq_zero_or_pos j with h | h
        · exact absurd ((par_eq_self_iff j).mpr h) hpj
        · exact h
      have hi : par j < j := par_lt hj0
      have hless : pqLess m q j (par j) = true := by
        cases h : pqLess m q j (par j)
        · exact absurd (Or.inr h) hc
        · rfl
      have hlt : keyAt m q j < keyAt m q (par j) :=
        (pqLess_true_iff m q j (par j)).mp hless
      have hres : upFuel (fuel + 1) m q j =
          upFuel fuel (pqSwap m q (par j) j).1 (pqSwap m q (par j) j).2 (par j) := by
        rw [upFuel_succ, if_neg hc]
      have hiq : par j < q.length := by omega
      have hij : par j ≠ j := hpj
      -- key translation facts for the swapped state
      have kfst : keyAt (pqSwap m q (par j) j).1 (pqSwap m q (par j) j).2 (par j) =
          keyAt m q j := keyAt_pqSwap_fst m q hiq hij
      have ksnd : keyAt (pqSwap m q (par j) j).1 (pqSwap m q (par j) j).2 j =
          keyAt m q (par j) := keyAt_pqSwap_snd m q hjq
      have koth : ∀ k, k ≠ par j → k ≠ j →
          keyAt (pqSwap m q (par j) j).1 (pqSwap m q (par j) j).2 k = keyAt m q k :=
        fun k h1 h2 => keyAt_pqSwap_other m q h1 h2
      -- hypotheses of the recursive call
      have hex2 : heapExceptAt (pqSwap m q (par j) j).1 (pqSwap m q (par j) j).2 n (par j) := by
        intro k hk hk0 hki
        by_cases hkj : k = j
        · subst hkj
          rw [ksnd, kfst]
          exact hlt.le
        · by_cases hpk : par k = j
          · rw [hpk, ksnd, koth k hki hkj]
            have h0j : keyAt m q (par j) ≤ keyAt m q k := by
              have := hgp hj0 k hk hpk
              exact this
            exact h0j
          · by_cases hpki : par k = par j
            · rw [hpki, kfst, koth k hki hkj]
              have h1 : keyAt m q (par k) ≤ keyAt m q k := hex k hk hk0 hkj
              rw [hpki] at h1
              exact le_trans hlt.le h1
            · rw [koth (par k) hpki hpk, koth k hki hkj]
              exact hex k hk hk0 hkj
      have hgp2 : 0 < par j → childBound (pqSwap m q (par j) j).1 (pqSwap m q (par j) j).2 n (par j) := by
        intro hi0 c hc hpc
        have hppi : par (par j) ≠ par j := fun h => absurd ((par_eq_self_iff (par j)).mp h) (by omega)
        have hppj : par (par j) ≠ j := by
          have := par_lt hi0
          omega
        rw [koth (par (par j)) hppi hppj]
        have hc0 : 0 < c := by
          rcases Nat.eq_zero_or_pos c with h | h
          · subst h; rw [par_zero] at hpc; omega
          · exact h
        by_cases hcj : c = j
        · subst hcj
          rw [ksnd]
          exact hex (par c) (by omega) hi0 (by omega)
        · have hcio : c ≠ par j := by
            have := par_lt hc0
            omega
          rw [koth c hcio hcj]
          have h1 : keyAt m q (par (par j)) ≤ keyAt m q (par j) :=
            hex (par j) (by omega) hi0 hij
          have h2 : keyAt m q (par c) ≤ keyAt m q c := hex c hc hc0 hcj
          rw [hpc] at h2
          exact le_trans h1 h2
      have ih := upFuel_spec fuel (pqSwap m q (par j) j).1 (pqSwap m q (par j) j).2 (par j) n
        (by omega) (by rw [pqSwap_length]; omega) (by omega)
        (pqSwap_nodup m q hiq hjq hij hnd)
        (posOK_pqSwap m q hnd hiq hjq hij hpos) hex2 hgp2
      rw [hres]
      obtain ⟨ih1, ih2, ih3, ih4, ih5, ih6⟩ := ih
      refine ⟨ih1, ih2, ih3.trans (pqSwap_perm m q hiq hjq hij), ?_, ?_, ?_⟩
      · exact sameFields_trans (pqSwap_sameFields m q (par j) j) ih4
      · intro k hk
        rw [ih5 k hk]
        exact idAt_pqSwap_other m q (by omega) (by omega)
      · rw [ih6, pqSwap_length]

/-! ### Sift-down correctness -/

theorem downFuel_succ (fuel : Nat) (m : Mem) (q : List ItemId) (i n : Nat) :
    downFuel (fuel + 1) m q i n =
      if n ≤ 2 * i + 1 then (m, q, i)
      else
        let j := if 2 * i + 2 < n ∧ pqLess m q (2 * i + 2) (2 * i + 1) = true
          then 2 * i + 2 else 2 * i + 1
        if pqLess m q j i = false then (m, q, i)
        else downFuel fuel (pqSwap m q i j).1 (pqSwap m q i j).2 j n := rfl

theorem downFuel_spec :
    ∀ (fuel : Nat) (m : Mem) (q : List ItemId) (i n : Nat),
      n ≤ fuel + i → n ≤ q.length → i < n → q.Nodup → posOK m q →
      heapExceptSub m q n i → (0 < i → childBound m q n i) →
      posOK (downFuel fuel m q i n).1 (downFuel fuel m q i n).2.1 ∧
      ((downFuel fuel m q i n).2.1).Perm q ∧
      sameFields m (downFuel fuel m q i n).1 ∧
      (∀ k, n ≤ k → idAt (downFuel fuel m q i n).2.1 k = idAt q k) ∧
      ((downFuel fuel m q i n).2.1).length = q.length ∧
      i ≤ (downFuel fuel m q i n).2.2 ∧
      (i < (downFuel fuel m q i n).2.2 →
        heapKeyUpTo (downFuel fuel m q i n).1 (downFuel fuel m q i n).2.1 n) ∧
      ((downFuel fuel m q i n).2.2 = i →
        (downFuel fuel m q i n).1 = m ∧ (downFuel fuel m q i n).2.1 = q ∧
        ∀ c, c < n → par c = i → keyAt m q i ≤ keyAt m q c)
  | 0, m, q, i, n, hf, _, hi, _, _, _, _ => absurd hf (by omega)
  | fuel + 1, m, q, i, n, hf, hn, hi, hnd, hpos, hex, hgp => by
    have hiq : i < q.length := by omega
    by_cases hb : n ≤ 2 * i + 1
    · have hres : downFuel (fuel + 1) m q i n = (m, q, i) := by
        rw [downFuel_succ, if_pos hb]
      rw [hres]
      refine ⟨hpos, List.Perm.refl q, sameFields_refl m, fun k _ => rfl, rfl,
        le_refl i, fun hcon => absurd hcon (lt_irrefl i), fun _ => ⟨rfl, rfl, ?_⟩⟩
      intro c hc hpc
      rcases Nat.eq_zero_or_pos c with h0 | h0
      · subst h0
        rw [par_zero] at hpc
        rw [← hpc]
      · rcases (par_eq_iff h0).mp hpc with h | h <;> omega
    · -- there is at least a left child
      have hj1 : 2 * i + 1 < n := by omega
      set jj : Nat := if 2 * i + 2 < n ∧ pqLess m q (2 * i + 2) (2 * i + 1) = true
        then 2 * i + 2 else 2 * i + 1 with hjj
      have hjcase : jj = 2 * i + 1 ∨ jj = 2 * i + 2 := by
        rw [hjj]; split <;> simp
      have hjn : jj < n := by
        rw [hjj]; split
        · omega
        · omega
      have hjlt : i < jj := by rcases hjcase with h | h <;> omega
      have hpjj : par jj = i := by
        rcases hjcase with h | h <;> rw [h] <;> [exact (par_eq_iff (by omega)).mpr (Or.inl rfl);
          exact (par_eq_iff (by omega)).mpr (Or.inr rfl)]
      have minchild : ∀ c, c < n → 0 < c → par c = i → keyAt m q jj ≤ keyAt m q c := by
        intro c hc hc0 hpc
        rcases (par_eq_iff hc0).mp hpc with h | h
        · subst h
          rw [hjj]
          split
          · rename_i hsel
            exact ((pqLess_true_iff m q _ _).mp hsel.2).le
          · exact le_refl _
        · subst h
          rw [hjj]
          split
          · exact le_refl _
          · rename_i hsel
            have hless : pqLess m q (2 * i + 2) (2 * i + 1) = false := by
              cases hl : pqLess m q (2 * i + 2) (2 * i + 1)
              · rfl
              · exact absurd ⟨hc, hl⟩ hsel
            exact (pqLess_false_iff m q _ _).mp hless
      by_cases hl : pqLess m q jj i = false
      · have hres : downFuel (fuel + 1) m q i n = (m, q, i) := by
          rw [downFuel_succ, if_neg hb]
          simp only [← hjj]
          rw [if_pos hl]
        rw [hres]
        refine ⟨hpos, List.Perm.refl q, sameFields_refl m, fun k _ => rfl, rfl,
          le_refl i, fun hcon => absurd hcon (lt_irrefl i), fun _ => ⟨rfl, rfl, ?_⟩⟩
        intro c hc hpc
        rcases Nat.eq_zero_or_pos c with h0 | h0
        · subst h0
          rw [par_zero] at hpc
          rw [← hpc]
        · exact le_trans ((pqLess_false_iff m q jj i).mp hl) (minchild c hc h0 hpc)
      · have hless : pqLess m q jj i = true := by
          cases h : pqLess m q jj i
          · exact absurd h hl
          · rfl
        have hlt : keyAt m q jj < keyAt m q i := (pqLess_true_iff m q jj i).mp hless
        have hres : downFuel (fuel + 1) m q i n =
            downFuel fuel (pqSwap m q i jj).1 (pqSwap m q i jj).2 jj n := by
          rw [downFuel_succ, if_neg hb]
          simp only [← hjj]
          rw [if_neg hl]
        have hjq : jj < q.length := by omega
        have hij : i ≠ jj := by omega
        have kfst : keyAt (pqSwap m q i jj).1 (pqSwap m q i jj).2 i = keyAt m q jj :=
          keyAt_pqSwap_fst m q hiq hij
        have ksnd : keyAt (pqSwap m q i jj).1 (pqSwap m q i jj).2 jj = keyAt m q i :=
          keyAt_pqSwap_snd m q hjq
        have koth : ∀ k, k ≠ i → k ≠ jj →
            keyAt (pqSwap m q i jj).1 (pqSwap m q i jj).2 k = keyAt m q k :=
          fun k h1 h2 => keyAt_pqSwap_other m q h1 h2
        have hex2 : heapExceptSub (pqSwap m q i jj).1 (pqSwap m q i jj).2 n jj := by
          intro k hk hk0 hkj hpkj
          by_cases hki : k = i
          · subst hki
            have hpi : par k ≠ k := fun h => absurd ((par_eq_self_iff k).mp h) (by omega)
            have hpij : par k ≠ jj := by
              have := par_lt hk0
              omega
            rw [kfst, koth (par k) hpi hpij]
            exact hgp hk0 jj hjn hpjj
          · by_cases hpki : par k = i
            · rw [hpki, kfst, koth k hki hkj]
              exact minchild k hk hk0 hpki
            · rw [koth (par k) hpki hpkj, koth k hki hkj]
              exact hex k hk hk0 hki hpki
        have hgp2 : 0 < jj → childBound (pqSwap m q i jj).1 (pqSwap m q i jj).2 n jj := by
          intro _ c hc hpc
          rw [hpjj, kfst]
          have hc0 : 0 < c := by
            rcases Nat.eq_zero_or_pos c with h0 | h0
            · subst h0; rw [par_zero] at hpc; omega
            · exact h0
          have hcj : c ≠ jj := by
            have := par_lt hc0
            omega
          have hci : c ≠ i := by
            rcases (par_eq_iff hc0).mp hpc with h | h <;> omega
          rw [koth c hci hcj]
          have := hex c hc hc0 hci (by rw [hpc]; omega)
          rw [hpc] at this
          exact this
        have ih := downFuel_spec fuel (pqSwap m q i jj).1 (pqSwap m q i jj).2 jj n
          (by omega) (by rw [pqSwap_length]; omega) hjn
          (pqSwap_nodup m q hiq hjq hij hnd)
          (posOK_pqSwap m q hnd hiq hjq hij hpos) hex2 hgp2
        rw [hres]
        obtain ⟨ih1, ih2, ih3, ih4, ih5, ih6, ih7, ih8⟩ := ih
        refine ⟨ih1, ih2.trans (pqSwap_perm m q hiq hjq hij),
          sameFields_trans (pqSwap_sameFields m q i jj) ih3, ?_, ?_, by omega, ?_, ?_⟩
        · intro k hk
          rw [ih4 k hk]
          exact idAt_pqSwap_other m q (by omega) (by omega)
        · rw [ih5, pqSwap_length]
        · intro _
          rcases Nat.lt_or_ge jj (downFuel fuel (pqSwap m q i jj).1 (pqSwap m q i jj).2 jj n).2.2
            with hmv | hmv
          · exact ih7 hmv
          · have heq : (downFuel fuel (pqSwap m q i jj).1 (pqSwap m q i jj).2 jj n).2.2 = jj := by
              omega
            obtain ⟨e1, e2, echild⟩ := ih8 heq
            rw [e1, e2]
            intro k hk hk0
            by_cases hkj : k = jj
            · subst hkj
              rw [hpjj, kfst, ksnd]
              exact hlt.le
            · by_cases hpk : par k = jj
              · rw [hpk]
                exact echild k hk hpk
              · exact hex2 k hk hk0 hkj hpk
        · intro hcon
          omega

/-! ### Operation specifications: fix, update, push -/

theorem heapUp_spec (m : Mem) (q : List ItemId) (j n : Nat)
    (hn : n ≤ q.length) (hj : j < n) (hnd : q.Nodup) (hpos : posOK m q)
    (hex : heapExceptAt m q n j) (hgp : 0 < j → childBound m q n j) :
    posOK (heapUp m q j).1 (heapUp m q j).2 ∧
    heapKeyUpTo (heapUp m q j).1 (heapUp m q j).2 n ∧
    ((heapUp m q j).2).Perm q ∧ sameFields m (heapUp m q j).1 ∧
    (∀ k, n ≤ k → idAt (heapUp m q j).2 k = idAt q k) ∧
    ((heapUp m q j).2).length = q.length :=
  upFuel_spec (j + 1) m q j n (by omega) hn hj hnd hpos hex hgp

theorem heapDown_spec (m : Mem) (q : List ItemId) (i n : Nat)
    (hn : n ≤ q.length) (hi : i < n) (hnd : q.Nodup) (hpos : posOK m q)
    (hex : heapExceptSub m q n i) (hgp : 0 < i → childBound m q n i) :
    posOK (heapDown m q i n).1 (heapDown m q i n).2.1 ∧
    ((heapDown m q i n).2.1).Perm q ∧
    sameFields m (heapDown m q i n).1 ∧
    (∀ k, n ≤ k → idAt (heapDown m q i n).2.1 k = idAt q k) ∧
    ((heapDown m q i n).2.1).length = q.length ∧
    i ≤ (heapDown m q i n).2.2 ∧
    (i < (heapDown m q i n).2.2 →
      heapKeyUpTo (heapDown m q i n).1 (heapDown m q i n).2.1 n) ∧
    ((heapDown m q i n).2.2 = i →
      (heapDown m q i n).1 = m ∧ (heapDown m q i n).2.1 = q ∧
      ∀ c, c < n → par c = i → keyAt m q i ≤ keyAt m q c) :=
  downFuel_spec n m q i n (by omega) hn hi hnd hpos hex hgp

theorem posOK_of_queueIndex_eq {m m' : Mem} (q : List ItemId)
    (hqi : ∀ x, (m' x).queueIndex = (m x).queueIndex) (hpos : posOK m q) :
    posOK m' q := by
  intro k hk
  rw [hqi]
  exact hpos k hk

theorem keyAt_congr_of_ne {m m' : Mem} (q : List ItemId) (id : ItemId)
    (hkey : ∀ x, x ≠ id → keyOf (m' x) = keyOf (m x)) (hnd : q.Nodup)
    {i k : Nat} (hi : i < q.length) (hat : idAt q i = id) (hk : k < q.length)
    (hki : k ≠ i) : keyAt m' q k = keyAt m q k := by
  unfold keyAt
  refine hkey (idAt q k) ?_
  rw [← hat, idAt_eq_getElem q hk, idAt_eq_getElem q hi]
  intro he
  exact hki ((List.Nodup.getElem_inj_iff hnd).mp he)

theorem pointUpdate_spec {m m' : Mem} (q : List ItemId) (id : ItemId) (i : Nat)
    (hheap : heapKeyUpTo m q q.length) (hnd : q.Nodup) (hi : i < q.length)
    (hat : idAt q i = id) (hkey : ∀ x, x ≠ id → keyOf (m' x) = keyOf (m x)) :
    heapExceptSub m' q q.length i ∧ (0 < i → childBound m' q q.length i) := by
  constructor
  · intro k hk hk0 hki hpki
    rw [keyAt_congr_of_ne q id hkey hnd hi hat hk hki,
      keyAt_congr_of_ne q id hkey hnd hi hat (by have := par_le k; omega) hpki]
    exact hheap k hk hk0
  · intro hi0 c hc hpc
    have hc0 : 0 < c := by
      rcases Nat.eq_zero_or_pos c with h0 | h0
      · subst h0; rw [par_zero] at hpc; omega
      · exact h0
    have hci : c ≠ i := by
      have := par_lt hc0
      omega
    have hpii : par i ≠ i := fun h => absurd ((par_eq_self_iff i).mp h) (by omega)
    rw [keyAt_congr_of_ne q id hkey hnd hi hat (by have := par_le i; omega) hpii,
      keyAt_congr_of_ne q id hkey hnd hi hat hc hci]
    have h1 : keyAt m q (par i) ≤ keyAt m q i := hheap i hi hi0
    have h2 : keyAt m q (par c) ≤ keyAt m q c := hheap c hc hc0
    rw [hpc] at h2
    exact le_trans h1 h2

theorem heapFixGo_spec (m : Mem) (q : List ItemId) (i : Nat)
    (hi : i < q.length) (hnd : q.Nodup) (hpos : posOK m q)
    (hex : heapExceptSub m q q.length i) (hgp : 0 < i → childBound m q q.length i) :
    posOK (heapFixGo m q i).1 (heapFixGo m q i).2 ∧
    heapKeyUpTo (heapFixGo m q i).1 (heapFixGo m q i).2 q.length ∧
    ((heapFixGo m q i).2).Perm q ∧ sameFields m (heapFixGo m q i).1 ∧
    ((heapFixGo m q i).2).length = q.length := by
  obtain ⟨d1, d2, d3, d4, d5, d6, d7, d8⟩ :=
    heapDown_spec m q i q.length (le_refl _) hi hnd hpos hex hgp
  unfold heapFixGo
  by_cases hmv : (heapDown m q i q.length).2.2 = i
  · obtain ⟨e1, e2, echild⟩ := d8 hmv
    rw [if_pos hmv, e1, e2]
    have hexUp : heapExceptAt m q q.length i := by
      intro k hk hk0 hki
      by_cases hpk : par k = i
      · rw [hpk]
        exact echild k hk hpk
      · exact hex k hk hk0 hki hpk
    obtain ⟨u1, u2, u3, u4, u5, u6⟩ :=
      heapUp_spec m q i q.length (le_refl _) hi hnd hpos hexUp hgp
    exact ⟨u1, u2, u3, u4, u6⟩
  · rw [if_neg hmv]
    exact ⟨d1, d7 (by omega), d2, d3, d5⟩

theorem pqUpdateItem_spec (m m' : Mem) (q : List ItemId) (id : ItemId) (i : Nat)
    (hw : wfPQ m q) (hi : i < q.length) (hat : idAt q i = id)
    (hkey : ∀ x, x ≠ id → keyOf (m' x) = keyOf (m x))
    (hqi : ∀ x, (m' x).queueIndex = (m x).queueIndex) :
    posOK (pqUpdateItem m' q id).1 (pqUpdateItem m' q id).2 ∧
    heapKeyUpTo (pqUpdateItem m' q id).1 (pqUpdateItem m' q id).2 q.length ∧
    ((pqUpdateItem m' q id).2).Perm q ∧ sameFields m' (pqUpdateItem m' q id).1 ∧
    ((pqUpdateItem m' q id).2).length = q.length := by
  obtain ⟨hpos, hheap, hnd⟩ := hw
  have hqidx : ((m' id).queueIndex).toNat = i := by
    rw [hqi id, ← hat, hpos i hi]
    simp
  have hres : pqUpdateItem m' q id = heapFixGo m' q i := by
    unfold pqUpdateItem
    rw [hqidx]
  rw [hres]
  obtain ⟨hexS, hgpS⟩ := pointUpdate_spec q id i ((heapUpTo_iff m q _).mp hheap) hnd hi hat hkey
  exact heapFixGo_spec m' q i hi hnd (posOK_of_queueIndex_eq q hqi hpos) hexS hgpS

theorem heapKeyUpTo_min (m : Mem) (q : List ItemId) (n : Nat)
    (h : heapKeyUpTo m q n) : ∀ i, i < n → keyAt m q 0 ≤ keyAt m q i := by
  intro i
  induction i using Nat.strong_induction_on with
  | _ i ih =>
    intro hi
    rcases Nat.eq_zero_or_pos i with h0 | h0
    · subst h0; exact le_refl _
    · have h1 : keyAt m q 0 ≤ keyAt m q (par i) :=
        ih (par i) (par_lt h0) (by have := par_lt h0; omega)
      exact le_trans h1 (h i hi h0)

theorem heapPushGo_spec (m : Mem) (q : List ItemId) (id : ItemId)
    (hw : wfPQ m q) (hfresh : id ∉ q) :
    posOK (heapPushGo m q id).1 (heapPushGo m q id).2 ∧
    heapKeyUpTo (heapPushGo m q id).1 (heapPushGo m q id).2 (q.length + 1) ∧
    ((heapPushGo m q id).2).Perm (id :: q) ∧ sameFields m (heapPushGo m q id).1 ∧
    ((heapPushGo m q id).2).length = q.length + 1 := by
  obtain ⟨hpos, hheap, hnd⟩ := hw
  have hnd1 : (q ++ [id]).Nodup := by
    simp [List.nodup_append, hnd, hfresh]
  have hpos1 : posOK (setIndexMem m id (Int.ofNat q.length)) (q ++ [id]) := by
    intro k hk
    simp only [List.length_append, List.length_singleton] at hk
    by_cases hkl : k < q.length
    · rw [idAt_append_lt q [id] hkl]
      have hne : idAt q k ≠ id := fun he => hfresh (he ▸ idAt_mem q hkl)
      rw [setIndexMem_ne _ _ _ hne]
      exact hpos k hkl
    · have hk1 : k = q.length := by omega
      subst hk1
      rw [idAt_append_self, setIndexMem_same]
  have hkeypres : ∀ x, keyOf (setIndexMem m id (Int.ofNat q.length) x) = keyOf (m x) :=
    keyOf_setIndexMem m id (Int.ofNat q.length)
  have hex : heapExceptAt (setIndexMem m id (Int.ofNat q.length)) (q ++ [id])
      (q.length + 1) q.length := by
    intro k hk hk0 hkn
    have hkl : k < q.length := by omega
    have hpkl : par k < q.length := by have := par_le k; omega
    unfold keyAt
    rw [idAt_append_lt q [id] hkl, idAt_append_lt q [id] hpkl, hkeypres, hkeypres]
    exact (heapUpTo_iff m q _).mp hheap k hkl hk0
  have hgp : 0 < q.length → childBound (setIndexMem m id (Int.ofNat q.length))
      (q ++ [id]) (q.length + 1) q.length := by
    intro hql c hc hpc
    have hc0 : 0 < c := by
      rcases Nat.eq_zero_or_pos c with h0 | h0
      · subst h0; rw [par_zero] at hpc; omega
      · exact h0
    rcases (par_eq_iff hc0).mp hpc with h | h <;> omega
  have hlen1 : q.length < (q ++ [id]).length := by simp
  obtain ⟨u1, u2, u3, u4, u5, u6⟩ := heapUp_spec (setIndexMem m id (Int.ofNat q.length))
    (q ++ [id]) q.length (q.length + 1) (by simp) (by omega) hnd1 hpos1 hex hgp
  refine ⟨u1, u2, ?_, ?_, ?_⟩
  · exact u3.trans (List.perm_append_singleton id q)
  · exact sameFields_trans (sameFields_setIndexMem m id (Int.ofNat q.length)) u4
  · exact u6.trans (by simp)

/-! ### Detaching the last slot, pop and remove -/

theorem wfPQ_of_key (m : Mem) (q : List ItemId) (hpos : posOK m q)
    (hkey : heapKeyUpTo m q q.length) (hnd : q.Nodup) : wfPQ m q :=
  ⟨hpos, (heapUpTo_iff m q q.length).mpr hkey, hnd⟩

theorem wfPQ_key (m : Mem) (q : List ItemId) (hw : wfPQ m q) :
    heapKeyUpTo m q q.length :=
  (heapUpTo_iff m q q.length).mp hw.2.1

theorem cons_take_perm (q : List ItemId) (n : Nat) (h : q.length = n + 1) :
    (idAt q n :: q.take n).Perm q := by
  have hn : n < q.length := by omega
  have hq : q = q.take n ++ [q[n]] := by
    conv_lhs => rw [← List.take_append_drop n q]
    rw [List.drop_eq_getElem_cons hn]
    simp [h]
  rw [idAt_eq_getElem q hn]
  conv_rhs => rw [hq]
  exact (List.perm_append_singleton _ _).symm

theorem interfacePop_spec (m : Mem) (q : List ItemId) (n : Nat) (hlen : q.length = n + 1)
    (hpos : posOK m q) (hkey : heapKeyUpTo m q n) (hnd : q.Nodup) :
    (interfacePop m q).1 = idAt q n ∧
    posOK (interfacePop m q).2.1 (interfacePop m q).2.2 ∧
    heapKeyUpTo (interfacePop m q).2.1 (interfacePop m q).2.2 n ∧
    ((interfacePop m q).2.2).Nodup ∧
    (idAt q n :: (interfacePop m q).2.2).Perm q ∧
    sameFields m (interfacePop m q).2.1 ∧
    ((interfacePop m q).2.2).length = n ∧
    ((interfacePop m q).2.1 (idAt q n)).queueIndex = -1 := by
  have hres : interfacePop m q = (idAt q n, setIndexMem m (idAt q n) (-1), q.take n) := by
    unfold interfacePop
    rw [hlen]
    simp
  rw [hres]
  dsimp only
  have hnotin : idAt q n ∉ q.take n := by
    intro hmem
    obtain ⟨k, hk, hke⟩ := List.mem_iff_getElem.mp hmem
    have hkn : k < n := by simp at hk; omega
    have : idAt (q.take n) k = idAt q n := by
      rw [idAt_eq_getElem _ hk]; exact hke
    rw [idAt_take q hkn, idAt_eq_getElem q (by omega), idAt_eq_getElem q (by omega)] at this
    have := (List.Nodup.getElem_inj_iff hnd).mp this
    omega
  refine ⟨rfl, ?_, ?_, ?_, ?_, sameFields_setIndexMem m _ _, ?_, ?_⟩
  · intro k hk
    have hkn : k < n := by simp at hk; omega
    rw [idAt_take q hkn]
    have hne : idAt q k ≠ idAt q n := by
      rw [idAt_eq_getElem q (by omega), idAt_eq_getElem q (by omega)]
      intro he
      have := (List.Nodup.getElem_inj_iff hnd).mp he
      omega
    rw [setIndexMem_ne _ _ _ hne]
    exact hpos k (by omega)
  · intro j hj hj0
    unfold keyAt
    rw [idAt_take q hj, idAt_take q (by have := par_lt hj0; omega),
      keyOf_setIndexMem, keyOf_setIndexMem]
    exact hkey j hj hj0
  · exact (List.take_sublist n q).nodup hnd
  · exact cons_take_perm q n hlen
  · simp; omega
  · rw [setIndexMem_same]

theorem heapPopGo_spec (m : Mem) (q : List ItemId) (hw : wfPQ m q)
    (h0 : 0 < q.length) :
    (heapPopGo m q).1 = idAt q 0 ∧
    wfPQ (heapPopGo m q).2.1 (heapPopGo m q).2.2 ∧
    (idAt q 0 :: (heapPopGo m q).2.2).Perm q ∧
    sameFields m (heapPopGo m q).2.1 ∧
    ((heapPopGo m q).2.2).length = q.length - 1 ∧
    ((heapPopGo m q).2.1 (idAt q 0)).queueIndex = -1 := by
  obtain ⟨hpos, hheap, hnd⟩ := hw
  rcases Nat.lt_or_ge q.length 2 with hsmall | hbig
  · -- single element
    have hlen1 : q.length = 1 := by omega
    have hres : heapPopGo m q = interfacePop m q := by
      unfold heapPopGo heapDown
      rw [hlen1]
      simp only [Nat.sub_self]
      rw [pqSwap_self m q hpos (by omega)]
      rfl
    rw [hres]
    obtain ⟨p1, p2, p3, p4, p5, p6, p7, p8⟩ := interfacePop_spec m q 0 (by omega) hpos
      (fun j hj hj0 => by omega) hnd
    have hq0 : ((interfacePop m q).2.2).length = 0 := p7
    refine ⟨p1, wfPQ_of_key _ _ p2 ?_ p4, p5, p6, by rw [p7]; omega, p8⟩
    intro j hj hj0
    rw [hq0] at hj
    omega
  · -- at least two elements
    have hn1 : 1 ≤ q.length - 1 := by omega
    have h0n : (0 : Nat) ≠ q.length - 1 := by omega
    have hiq : (0 : Nat) < q.length := by omega
    have hjq : q.length - 1 < q.length := by omega
    have hswl : ((pqSwap m q 0 (q.length - 1)).2).length = q.length := pqSwap_length _ _ _ _
    have hnd1 : ((pqSwap m q 0 (q.length - 1)).2).Nodup := pqSwap_nodup m q hiq hjq h0n hnd
    have hpos1 : posOK (pqSwap m q 0 (q.length - 1)).1 (pqSwap m q 0 (q.length - 1)).2 :=
      posOK_pqSwap m q hnd hiq hjq h0n hpos
    have hkeyq := wfPQ_key m q ⟨hpos, hheap, hnd⟩
    have hex : heapExceptSub (pqSwap m q 0 (q.length - 1)).1 (pqSwap m q 0 (q.length - 1)).2
        (q.length - 1) 0 := by
      intro k hk hk0 hki hpki
      have hpk := par_lt hk0
      rw [keyAt_pqSwap_other m q hpki (by omega),
        keyAt_pqSwap_other m q hki (by omega)]
      exact hkeyq k (by omega) hk0
    obtain ⟨d1, d2, d3, d4, d5, d6, d7, d8⟩ :=
      heapDown_spec (pqSwap m q 0 (q.length - 1)).1 (pqSwap m q 0 (q.length - 1)).2 0
        (q.length - 1) (by omega) (by omega) hnd1 hpos1 hex (fun h => absurd h (by omega))
    set r := heapDown (pqSwap m q 0 (q.length - 1)).1 (pqSwap m q 0 (q.length - 1)).2 0
      (q.length - 1) with hr
    have hrkey : heapKeyUpTo r.1 r.2.1 (q.length - 1) := by
      rcases Nat.eq_zero_or_pos r.2.2 with hz | hp
      · obtain ⟨e1, e2, echild⟩ := d8 hz
        intro j hj hj0
        by_cases hpj : par j = 0
        · rw [hpj, e1, e2]
          exact echild j hj hpj
        · rw [e1, e2]
          exact hex j hj hj0 (by omega) hpj
      · exact d7 hp
    have hrnd : r.2.1.Nodup := d2.nodup_iff.mpr hnd1
    have hlast : idAt r.2.1 (q.length - 1) = idAt q 0 := by
      rw [d4 (q.length - 1) (le_refl _)]
      exact idAt_pqSwap_snd m q hjq
    have hres : heapPopGo m q = interfacePop r.1 r.2.1 := rfl
    obtain ⟨p1, p2, p3, p4, p5, p6, p7, p8⟩ :=
      interfacePop_spec r.1 r.2.1 (q.length - 1) (by rw [d5, hswl]; omega) d1 hrkey hrnd
    rw [hres]
    refine ⟨by rw [p1, hlast], ?_, ?_, ?_, by rw [p7], ?_⟩
    · refine wfPQ_of_key _ _ p2 ?_ p4
      rw [p7]
      exact p3
    · rw [hlast] at p5
      exact p5.trans (d2.trans (pqSwap_perm m q hiq hjq h0n))
    · exact sameFields_trans (pqSwap_sameFields m q 0 (q.length - 1))
        (sameFields_trans d3 p6)
    · rw [hlast] at p8
      exact p8

theorem interfacePop_assemble (m1 : Mem) (q1 : List ItemId) (n : Nat) (tid : ItemId)
    (hlen : q1.length = n + 1) (hpos : posOK m1 q1) (hkey : heapKeyUpTo m1 q1 n)
    (hnd : q1.Nodup) (htid : idAt q1 n = tid) :
    (interfacePop m1 q1).1 = tid ∧
    wfPQ (interfacePop m1 q1).2.1 (interfacePop m1 q1).2.2 ∧
    (tid :: (interfacePop m1 q1).2.2).Perm q1 ∧
    sameFields m1 (interfacePop m1 q1).2.1 ∧
    ((interfacePop m1 q1).2.2).length = n ∧
    ((interfacePop m1 q1).2.1 tid).queueIndex = -1 := by
  obtain ⟨p1, p2, p3, p4, p5, p6, p7, p8⟩ := interfacePop_spec m1 q1 n hlen hpos hkey hnd
  rw [htid] at p1 p5 p8
  refine ⟨p1, wfPQ_of_key _ _ p2 ?_ p4, p5, p6, p7, p8⟩
  rw [p7]
  exact p3

theorem heapRemoveGo_spec (m : Mem) (q : List ItemId) (i : Nat) (hw : wfPQ m q)
    (hi : i < q.length) :
    (heapRemoveGo m q i).1 = idAt q i ∧
    wfPQ (heapRemoveGo m q i).2.1 (heapRemoveGo m q i).2.2 ∧
    (idAt q i :: (heapRemoveGo m q i).2.2).Perm q ∧
    sameFields m (heapRemoveGo m q i).2.1 ∧
    ((heapRemoveGo m q i).2.2).length = q.length - 1 ∧
    ((heapRemoveGo m q i).2.1 (idAt q i)).queueIndex = -1 := by
  obtain ⟨hpos, hheap, hnd⟩ := hw
  have hkeyq := wfPQ_key m q ⟨hpos, hheap, hnd⟩
  by_cases hin : i = q.length - 1
  · have hres : heapRemoveGo m q i = interfacePop m q := by
      unfold heapRemoveGo
      rw [if_pos hin]
    rw [hres, hin]
    exact interfacePop_assemble m q (q.length - 1) (idAt q (q.length - 1)) (by omega) hpos
      (fun j hj hj0 => hkeyq j (by omega) hj0) hnd rfl
  · have hn1 : i < q.length - 1 := by omega
    have hlen2 : 2 ≤ q.length := by omega
    have hjq : q.length - 1 < q.length := by omega
    have hij : i ≠ q.length - 1 := hin
    have hswl : ((pqSwap m q i (q.length - 1)).2).length = q.length := pqSwap_length _ _ _ _
    have hnd1 : ((pqSwap m q i (q.length - 1)).2).Nodup := pqSwap_nodup m q hi hjq hij hnd
    have hpos1 : posOK (pqSwap m q i (q.length - 1)).1 (pqSwap m q i (q.length - 1)).2 :=
      posOK_pqSwap m q hnd hi hjq hij hpos
    have hex : heapExceptSub (pqSwap m q i (q.length - 1)).1 (pqSwap m q i (q.length - 1)).2
        (q.length - 1) i := by
      intro k hk hk0 hki hpki
      have hpk := par_lt hk0
      rw [keyAt_pqSwap_other m q hpki (by omega),
        keyAt_pqSwap_other m q hki (by omega)]
      exact hkeyq k (by omega) hk0
    have hgp : 0 < i → childBound (pqSwap m q i (q.length - 1)).1
        (pqSwap m q i (q.length - 1)).2 (q.length - 1) i := by
      intro hi0 c hc hpc
      have hc0 : 0 < c := by
        rcases Nat.eq_zero_or_pos c with h0 | h0
        · subst h0; rw [par_zero] at hpc; omega
        · exact h0
      have hcl := par_lt hc0
      have hpii := par_lt hi0
      rw [keyAt_pqSwap_other m q (by omega) (by omega),
        keyAt_pqSwap_other m q (by omega) (by omega)]
      have h1 : keyAt m q (par i) ≤ keyAt m q i := hkeyq i (by omega) hi0
      have h2 : keyAt m q (par c) ≤ keyAt m q c := hkeyq c (by omega) hc0
      rw [hpc] at h2
      exact le_trans h1 h2
    obtain ⟨d1, d2, d3, d4, d5, d6, d7, d8⟩ :=
      heapDown_spec (pqSwap m q i (q.length - 1)).1 (pqSwap m q i (q.length - 1)).2 i
        (q.length - 1) (by omega) (by omega) hnd1 hpos1 hex hgp
    set r := heapDown (pqSwap m q i (q.length - 1)).1 (pqSwap m q i (q.length - 1)).2 i
      (q.length - 1) with hr
    have hlastp : idAt (pqSwap m q i (q.length - 1)).2 (q.length - 1) = idAt q i :=
      idAt_pqSwap_snd m q hjq
    by_cases hmv : r.2.2 = i
    · obtain ⟨e1, e2, echild⟩ := d8 hmv
      have hres : heapRemoveGo m q i =
          interfacePop (heapUp r.1 r.2.1 i).1 (heapUp r.1 r.2.1 i).2 := by
        unfold heapRemoveGo
        rw [if_neg hin]
        show interfacePop (if r.2.2 = i then heapUp r.1 r.2.1 i else (r.1, r.2.1)).1
          (if r.2.2 = i then heapUp r.1 r.2.1 i else (r.1, r.2.1)).2 = _
        rw [if_pos hmv]
      have hexUp : heapExceptAt (pqSwap m q i (q.length - 1)).1
          (pqSwap m q i (q.length - 1)).2 (q.length - 1) i := by
        intro k hk hk0 hki
        by_cases hpk : par k = i
        · rw [hpk]
          exact echild k hk hpk
        · exact hex k hk hk0 hki hpk
      obtain ⟨u1, u2, u3, u4, u5, u6⟩ :=
        heapUp_spec (pqSwap m q i (q.length - 1)).1 (pqSwap m q i (q.length - 1)).2 i
          (q.length - 1) (by omega) (by omega) hnd1 hpos1 hexUp hgp
      rw [e1, e2] at hres
      rw [hres]
      obtain ⟨a1, a2, a3, a4, a5, a6⟩ := interfacePop_assemble
        (heapUp (pqSwap m q i (q.length - 1)).1 (pqSwap m q i (q.length - 1)).2 i).1
        (heapUp (pqSwap m q i (q.length - 1)).1 (pqSwap m q i (q.length - 1)).2 i).2
        (q.length - 1) (idAt q i) (by rw [u6, hswl]; omega) u1 u2
        (u3.nodup_iff.mpr hnd1)
        (by rw [u5 (q.length - 1) (le_refl _)]; exact hlastp)
      refine ⟨a1, a2, ?_, ?_, by rw [a5], a6⟩
      · exact a3.trans (u3.trans (pqSwap_perm m q hi hjq hij))
      · exact sameFields_trans (pqSwap_sameFields m q i (q.length - 1))
          (sameFields_trans u4 a4)
    · have hres : heapRemoveGo m q i = interfacePop r.1 r.2.1 := by
        unfold heapRemoveGo
        rw [if_neg hin]
        show interfacePop (if r.2.2 = i then heapUp r.1 r.2.1 i else (r.1, r.2.1)).1
          (if r.2.2 = i then heapUp r.1 r.2.1 i else (r.1, r.2.1)).2 = _
        rw [if_neg hmv]
      rw [hres]
      obtain ⟨a1, a2, a3, a4, a5, a6⟩ := interfacePop_assemble r.1 r.2.1
        (q.length - 1) (idAt q i) (by rw [d5, hswl]; omega) d1 (d7 (by omega))
        (d2.nodup_iff.mpr hnd1)
        (by rw [d4 (q.length - 1) (le_refl _)]; exact hlastp)
      refine ⟨a1, a2, ?_, ?_, by rw [a5], a6⟩
      · exact a3.trans (d2.trans (pqSwap_perm m q hi hjq hij))
      · exact sameFields_trans (pqSwap_sameFields m q i (q.length - 1))
          (sameFields_trans d3 a4)

/-! ### Wrapper method specifications -/

theorem pqPush_spec (m : Mem) (q : List ItemId) (id : ItemId) (hw : wfPQ m q)
    (hfresh : id ∉ q) :
    wfPQ (pqPush m q id).1 (pqPush m q id).2 ∧
    ((pqPush m q id).2).Perm (id :: q) ∧ sameFields m (pqPush m q id).1 ∧
    ((pqPush m q id).2).length = q.length + 1 := by
  obtain ⟨u1, u2, u3, u4, u5⟩ := heapPushGo_spec m q id hw hfresh
  have hnd1 : ((pqPush m q id).2).Nodup := by
    refine u3.nodup_iff.mpr ?_
    simp [hw.2.2, hfresh]
  refine ⟨wfPQ_of_key _ _ u1 ?_ hnd1, u3, u4, u5⟩
  show heapKeyUpTo (heapPushGo m q id).1 (heapPushGo m q id).2 ((heapPushGo m q id).2.length)
  rw [u5]
  exact u2

theorem pqPop_spec (m : Mem) (q : List ItemId) (hw : wfPQ m q) :
    (q = [] → pqPop m q = (none, m, q)) ∧
    (q ≠ [] →
      (pqPop m q).1 = some (idAt q 0) ∧
      wfPQ (pqPop m q).2.1 (pqPop m q).2.2 ∧
      (idAt q 0 :: (pqPop m q).2.2).Perm q ∧
      sameFields m (pqPop m q).2.1 ∧
      ((pqPop m q).2.2).length = q.length - 1 ∧
      (∀ k, k < q.length → keyAt m q 0 ≤ keyAt m q k)) := by
  constructor
  · intro he
    subst he
    rfl
  · intro hne
    have h0 : 0 < q.length := List.length_pos.mpr hne
    have hres : pqPop m q = (some (heapPopGo m q).1, (heapPopGo m q).2.1, (heapPopGo m q).2.2) := by
      unfold pqPop
      rw [if_neg (by omega)]
    obtain ⟨g1, g2, g3, g4, g5, g6⟩ := heapPopGo_spec m q hw h0
    rw [hres]
    refine ⟨by rw [g1], g2, g3, g4, g5, ?_⟩
    exact heapKeyUpTo_min m q q.length (wfPQ_key m q hw)

theorem pqRemoveItem_spec (m : Mem) (q : List ItemId) (id : ItemId) (i : Nat)
    (hw : wfPQ m q) (hi : i < q.length) (hat : idAt q i = id) :
    wfPQ (pqRemoveItem m q id).1 (pqRemoveItem m q id).2 ∧
    (id :: (pqRemoveItem m q id).2).Perm q ∧
    sameFields m (pqRemoveItem m q id).1 ∧
    ((pqRemoveItem m q id).2).length = q.length - 1 ∧
    id ∉ (pqRemoveItem m q id).2 := by
  have hqidx : ((m id).queueIndex).toNat = i := by
    rw [← hat, hw.1 i hi]
    simp
  have hres : pqRemoveItem m q id =
      ((heapRemoveGo m q i).2.1, (heapRemoveGo m q i).2.2) := by
    unfold pqRemoveItem
    rw [hqidx]
  obtain ⟨g1, g2, g3, g4, g5, g6⟩ := heapRemoveGo_spec m q i hw hi
  rw [hat] at g3 g6
  rw [hres]
  have hndcons : (id :: (heapRemoveGo m q i).2.2).Nodup := g3.nodup_iff.mpr hw.2.2
  refine ⟨g2, g3, g4, g5, ?_⟩
  exact (List.nodup_cons.mp hndcons).1

/-! ### The heap invariant under arbitrary operation sequences (C4) -/

theorem wfPQ_memSet_fresh (m : Mem) (q : List ItemId) (id : ItemId) (it : Item)
    (hw : wfPQ m q) (hfresh : id ∉ q) : wfPQ (memSet m id it) q := by
  obtain ⟨hpos, hheap, hnd⟩ := hw
  have hne : ∀ k, k < q.length → idAt q k ≠ id :=
    fun k hk he => hfresh (he ▸ idAt_mem q hk)
  refine ⟨?_, ?_, hnd⟩
  · intro k hk
    rw [memSet_ne _ _ _ (hne k hk)]
    exact hpos k hk
  · intro j hj hj0
    rw [memSet_ne _ _ _ (hne j hj), memSet_ne _ _ _ (hne (par j) (by have := par_lt hj0; omega))]
    exact hheap j hj hj0

theorem applyOp_preserves (s : PQState) (op : PQOp)
    (h : wfPQ s.mem s.q ∧ ∀ id ∈ s.q, id < s.nid) :
    wfPQ (applyOp s op).mem (applyOp s op).q ∧
    ∀ id ∈ (applyOp s op).q, id < (applyOp s op).nid := by
  obtain ⟨hw, hb⟩ := h
  cases op with
  | push it =>
    have hres : applyOp s (.push it) =
        ⟨(pqPush (memSet s.mem s.nid it) s.q s.nid).1,
          (pqPush (memSet s.mem s.nid it) s.q s.nid).2, s.nid + 1⟩ := rfl
    rw [hres]
    have hfresh : s.nid ∉ s.q := fun hmem => absurd (hb s.nid hmem) (Nat.lt_irrefl s.nid)
    have hw1 : wfPQ (memSet s.mem s.nid it) s.q := wfPQ_memSet_fresh s.mem s.q s.nid it hw hfresh
    obtain ⟨p1, p2, p3, p4⟩ := pqPush_spec (memSet s.mem s.nid it) s.q s.nid hw1 hfresh
    refine ⟨p1, ?_⟩
    intro id hmem
    rcases List.mem_cons.mp (p2.mem_iff.mp hmem) with h | h
    · exact h ▸ Nat.lt_succ_self s.nid
    · exact Nat.lt_succ_of_lt (hb id h)
  | pop =>
    have hres : applyOp s .pop =
        ⟨(pqPop s.mem s.q).2.1, (pqPop s.mem s.q).2.2, s.nid⟩ := rfl
    rw [hres]
    obtain ⟨hemp, hne⟩ := pqPop_spec s.mem s.q hw
    by_cases he : s.q = []
    · rw [hemp he]
      exact ⟨hw, hb⟩
    · obtain ⟨n1, n2, n3, n4, n5, n6⟩ := hne he
      refine ⟨n2, ?_⟩
      intro id hmem
      exact hb id (n3.mem_iff.mp (List.mem_cons_of_mem _ hmem))
  | removeAt k =>
    have hres : applyOp s (.removeAt k) =
        if k < s.q.length then
          ⟨(pqRemoveItem s.mem s.q (idAt s.q k)).1,
            (pqRemoveItem s.mem s.q (idAt s.q k)).2, s.nid⟩
        else s := rfl
    rw [hres]
    by_cases hk : k < s.q.length
    · rw [if_pos hk]
      obtain ⟨r1, r2, r3, r4, r5⟩ := pqRemoveItem_spec s.mem s.q (idAt s.q k) k hw hk rfl
      refine ⟨r1, ?_⟩
      intro id hmem
      exact hb id (r2.mem_iff.mp (List.mem_cons_of_mem _ hmem))
    · rw [if_neg hk]
      exact ⟨hw, hb⟩
  | updAt k v =>
    have hres : applyOp s (.updAt k v) =
        if k < s.q.length then
          ⟨(pqUpdateItem (memSet s.mem (idAt s.q k) { s.mem (idAt s.q k) with ExpireAt := v })
              s.q (idAt s.q k)).1,
            (pqUpdateItem (memSet s.mem (idAt s.q k) { s.mem (idAt s.q k) with ExpireAt := v })
              s.q (idAt s.q k)).2, s.nid⟩
        else s := rfl
    rw [hres]
    by_cases hk : k < s.q.length
    · rw [if_pos hk]
      obtain ⟨f1, f2, f3, f4, f5⟩ := pqUpdateItem_spec s.mem
        (memSet s.mem (idAt s.q k) { s.mem (idAt s.q k) with ExpireAt := v })
        s.q (idAt s.q k) k hw hk rfl
        (fun x hx => by rw [memSet_ne _ _ _ hx])
        (fun x => by
          by_cases hx : x = idAt s.q k
          · subst hx; rw [memSet_same]
          · rw [memSet_ne _ _ _ hx])
      have hnd2 : ((pqUpdateItem (memSet s.mem (idAt s.q k)
          { s.mem (idAt s.q k) with ExpireAt := v }) s.q (idAt s.q k)).2).Nodup :=
        f3.nodup_iff.mpr hw.2.2
      refine ⟨wfPQ_of_key _ _ f1 ?_ hnd2, ?_⟩
      · show heapKeyUpTo _ _ ((pqUpdateItem (memSet s.mem (idAt s.q k)
          { s.mem (idAt s.q k) with ExpireAt := v }) s.q (idAt s.q k)).2.length)
        rw [f5]
        exact f2
      · intro id hmem
        exact hb id (f3.mem_iff.mp hmem)
    · rw [if_neg hk]
      exact ⟨hw, hb⟩

theorem foldl_applyOp_preserves (ops : List PQOp) :
    ∀ (s : PQState), wfPQ s.mem s.q ∧ (∀ id ∈ s.q, id < s.nid) →
      wfPQ (ops.foldl applyOp s).mem (ops.foldl applyOp s).q ∧
      ∀ id ∈ (ops.foldl applyOp s).q, id < (ops.foldl applyOp s).nid := by
  induction ops with
  | nil => intro s h; exact h
  | cons op rest ih =>
    intro s h
    exact ih (applyOp s op) (applyOp_preserves s op h)

theorem mapGet_mem {items : List (String × ItemId)} {key : String} {id : ItemId}
    (h : mapGet items key = some id) : (key, id) ∈ items := by
  unfold mapGet at h
  cases hf : items.find? (fun p => p.1 = key) with
  | none => rw [hf] at h; simp at h
  | some p =>
    rw [hf] at h
    have hmem := List.mem_of_find?_eq_some hf
    have hdec := List.find?_some hf
    simp only [decide_eq_true_eq] at hdec
    have h2 : p.2 = id := by simpa using h
    have hp : p = (key, id) := by
      cases p
      simp_all
    rw [hp] at hmem
    exact hmem

theorem mapGet_mapSet_self (items : List (String × ItemId)) (key : String) (id : ItemId) :
    mapGet (mapSet items key id) key = some id := by
  induction items with
  | nil => simp [mapGet, mapSet]
  | cons p rest ih =>
    unfold mapSet
    by_cases hp : p.1 = key
    · rw [if_pos hp]
      simp [mapGet]
    · rw [if_neg hp]
      unfold mapGet
      rw [List.find?_cons_of_neg _ (by simp [hp])]
      exact ih

theorem mapGet_mapDelete_self (items : List (String × ItemId)) (key : String) :
    mapGet (mapDelete items key) key = none := by
  induction items with
  | nil => simp [mapGet, mapDelete]
  | cons p rest ih =>
    unfold mapDelete
    by_cases hp : p.1 = key
    · rw [List.filter_cons_of_neg (by simp [hp])]
      exact ih
    · rw [List.filter_cons_of_pos (by simp [hp])]
      unfold mapGet
      rw [List.find?_cons_of_neg _ (by simp [hp])]
      exact ih

theorem mem_pq_position (q : List ItemId) (id : ItemId) (h : id ∈ q) :
    ∃ i, i < q.length ∧ idAt q i = id := by
  obtain ⟨i, hi, he⟩ := List.mem_iff_getElem.mp h
  exact ⟨i, hi, by rw [idAt_eq_getElem _ hi]; exact he⟩

/-! ### `GetItem` case analysis -/

theorem GetItem_miss (now : Int) (c : CacheState) (key : String)
    (h : mapGet c.items key = none) : GetItem now c key = (none, false, c) := by
  unfold GetItem
  rw [h]

theorem GetItem_expired_case (now : Int) (c : CacheState) (key : String) (id : ItemId)
    (h : mapGet c.items key = some id) (he : (c.mem id).expired now = true) :
    GetItem now c key = (none, false, c) := by
  unfold GetItem
  rw [h]
  simp only [he, if_true]

theorem GetItem_hit_inelig (now : Int) (c : CacheState) (key : String) (id : ItemId)
    (h : mapGet c.items key = some id) (he : (c.mem id).expired now = false)
    (hnl : ¬ (0 ≤ (c.mem id).TTL ∧ (0 < (c.mem id).TTL ∨ 0 < c.ttl))) :
    GetItem now c key =
      (some id, decide (now + (c.mem id).TTL < c.expirationTime), c) := by
  unfold GetItem
  rw [h]
  dsimp only
  rw [if_neg (by rw [he]; exact Bool.false_ne_true)]
  rw [if_neg hnl]

theorem touch_fields (now : Int) (it : Item) :
    (Item.touch now it).key = it.key ∧ (Item.touch now it).data = it.data ∧
    (Item.touch now it).TTL = it.TTL ∧
    (Item.touch now it).queueIndex = it.queueIndex ∧
    (Item.touch now it).ExpireAt =
      (if 0 < it.TTL then now + it.TTL else it.ExpireAt) := by
  unfold Item.touch
  split
  · exact ⟨rfl, rfl, rfl, rfl, rfl⟩
  · exact ⟨rfl, rfl, rfl, rfl, rfl⟩

theorem GetItem_hit_elig (now : Int) (c : CacheState) (key : String) (id : ItemId)
    (hwf : wfCache c) (h : mapGet c.items key = some id)
    (he : (c.mem id).expired now = false)
    (helig : 0 ≤ (c.mem id).TTL ∧ (0 < (c.mem id).TTL ∨ 0 < c.ttl)) :
    (GetItem now c key).1 = some id ∧
    ((GetItem now c key).2.2).items = c.items ∧
    ((GetItem now c key).2.2).ttl = c.ttl ∧
    ((GetItem now c key).2.2).skipTTLExtension = c.skipTTLExtension ∧
    ((GetItem now c key).2.2).expirationTime = c.expirationTime ∧
    ((GetItem now c key).2.2).nextId = c.nextId ∧
    wfPQ ((GetItem now c key).2.2).mem ((GetItem now c key).2.2).pqItems ∧
    (((GetItem now c key).2.2).pqItems).Perm c.pqItems ∧
    (∀ x, (((GetItem now c key).2.2).mem x).key = (c.mem x).key ∧
      (((GetItem now c key).2.2).mem x).data = (c.mem x).data) ∧
    (∀ x, x ≠ id → (((GetItem now c key).2.2).mem x).TTL = (c.mem x).TTL ∧
      (((GetItem now c key).2.2).mem x).ExpireAt = (c.mem x).ExpireAt) ∧
    (((GetItem now c key).2.2).mem id).TTL =
      (if 0 < c.ttl ∧ (c.mem id).TTL = 0 then c.ttl else (c.mem id).TTL) ∧
    (((GetItem now c key).2.2).mem id).ExpireAt =
      (if c.skipTTLExtension = false ∧
          0 < (if 0 < c.ttl ∧ (c.mem id).TTL = 0 then c.ttl else (c.mem id).TTL) then
        now + (if 0 < c.ttl ∧ (c.mem id).TTL = 0 then c.ttl else (c.mem id).TTL)
      else (c.mem id).ExpireAt) := by
  obtain ⟨hwq, hbound, hmap, hknd⟩ := hwf
  have hidmem : id ∈ c.pqItems := (hmap (key, id) (mapGet_mem h)).1
  obtain ⟨i, hi, hat⟩ := mem_pq_position c.pqItems id hidmem
  set T2 : Int := if 0 < c.ttl ∧ (c.mem id).TTL = 0 then c.ttl else (c.mem id).TTL with hT2
  set M1 : Mem := if 0 < c.ttl ∧ (c.mem id).TTL = 0 then
    memSet c.mem id { c.mem id with TTL := c.ttl } else c.mem with hM1
  set M2 : Mem := if c.skipTTLExtension = false then
    memSet M1 id (Item.touch now (M1 id)) else M1 with hM2
  have hm1frame : ∀ x, x ≠ id → M1 x = c.mem x := by
    intro x hx
    rw [hM1]
    split
    · rw [memSet_ne _ _ _ hx]
    · rfl
  have hm1TTL : (M1 id).TTL = T2 := by
    rw [hM1, hT2]
    split
    · rw [memSet_same]
    · rfl
  have hm1Exp : (M1 id).ExpireAt = (c.mem id).ExpireAt := by
    rw [hM1]
    split
    · rw [memSet_same]
    · rfl
  have hm1key : (M1 id).key = (c.mem id).key := by
    rw [hM1]
    split
    · rw [memSet_same]
    · rfl
  have hm1data : (M1 id).data = (c.mem id).data := by
    rw [hM1]
    split
    · rw [memSet_same]
    · rfl
  have hm1qi : (M1 id).queueIndex = (c.mem id).queueIndex := by
    rw [hM1]
    split
    · rw [memSet_same]
    · rfl
  have hm2frame : ∀ x, x ≠ id → M2 x = c.mem x := by
    intro x hx
    rw [hM2]
    split
    · rw [memSet_ne _ _ _ hx]
      exact hm1frame x hx
    · exact hm1frame x hx
  have hm2TTL : (M2 id).TTL = T2 := by
    rw [hM2]
    split
    · rw [memSet_same, (touch_fields now (M1 id)).2.2.1, hm1TTL]
    · exact hm1TTL
  have hm2Exp : (M2 id).ExpireAt =
      (if c.skipTTLExtension = false ∧ 0 < T2 then now + T2 else (c.mem id).ExpireAt) := by
    rw [hM2]
    split
    · rename_i hskip
      rw [memSet_same, (touch_fields now (M1 id)).2.2.2.2, hm1TTL, hm1Exp]
      by_cases ht : 0 < T2
      · rw [if_pos ht, if_pos ⟨hskip, ht⟩]
      · rw [if_neg ht, if_neg (by intro hc; exact ht hc.2)]
    · rename_i hskip
      rw [hm1Exp, if_neg (by intro hc; exact hskip hc.1)]
  have hm2key : (M2 id).key = (c.mem id).key := by
    rw [hM2]
    split
    · rw [memSet_same, (touch_fields now (M1 id)).1, hm1key]
    · exact hm1key
  have hm2data : (M2 id).data = (c.mem id).data := by
    rw [hM2]
    split
    · rw [memSet_same, (touch_fields now (M1 id)).2.1, hm1data]
    · exact hm1data
  have hm2qi : ∀ x, (M2 x).queueIndex = (c.mem x).queueIndex := by
    intro x
    by_cases hx : x = id
    · subst hx
      rw [hM2]
      split
      · rw [memSet_same, (touch_fields now (M1 x)).2.2.2.1, hm1qi]
      · exact hm1qi
    · rw [hm2frame x hx]
  obtain ⟨f1, f2, f3, f4, f5⟩ := pqUpdateItem_spec c.mem M2 c.pqItems id i
    ⟨hwq.1, hwq.2.1, hwq.2.2⟩ hi hat
    (fun x hx => by rw [hm2frame x hx]) hm2qi
  have hres : GetItem now c key =
      (some id,
        decide (now + ((pqUpdateItem M2 c.pqItems id).1 id).TTL < c.expirationTime),
        { c with mem := (pqUpdateItem M2 c.pqItems id).1,
                 pqItems := (pqUpdateItem M2 c.pqItems id).2 }) := by
    unfold GetItem
    rw [h]
    dsimp only
    rw [if_neg (by rw [he]; exact Bool.false_ne_true)]
    rw [if_pos helig]
  rw [hres]
  have hndP : ((pqUpdateItem M2 c.pqItems id).2).Nodup := f3.nodup_iff.mpr hwq.2.2
  refine ⟨rfl, rfl, rfl, rfl, rfl, rfl, ?_, f3, ?_, ?_, ?_, ?_⟩
  · refine wfPQ_of_key _ _ f1 ?_ hndP
    show heapKeyUpTo _ _ ((pqUpdateItem M2 c.pqItems id).2).length
    rw [f5]
    exact f2
  · intro x
    obtain ⟨k1, d1, t1, e1⟩ := f4 x
    constructor
    · show ((pqUpdateItem M2 c.pqItems id).1 x).key = (c.mem x).key
      rw [k1]
      by_cases hx : x = id
      · subst hx; exact hm2key
      · rw [hm2frame x hx]
    · show ((pqUpdateItem M2 c.pqItems id).1 x).data = (c.mem x).data
      rw [d1]
      by_cases hx : x = id
      · subst hx; exact hm2data
      · rw [hm2frame x hx]
  · intro x hx
    obtain ⟨k1, d1, t1, e1⟩ := f4 x
    constructor
    · show ((pqUpdateItem M2 c.pqItems id).1 x).TTL = (c.mem x).TTL
      rw [t1, hm2frame x hx]
    · show ((pqUpdateItem M2 c.pqItems id).1 x).ExpireAt = (c.mem x).ExpireAt
      rw [e1, hm2frame x hx]
  · show ((pqUpdateItem M2 c.pqItems id).1 id).TTL = T2
    rw [(f4 id).2.2.1, hm2TTL]
  · show ((pqUpdateItem M2 c.pqItems id).1 id).ExpireAt = _
    rw [(f4 id).2.2.2, hm2Exp]

theorem runOps_wf (ops : List PQOp) :
    wfPQ (runOps ops).mem (runOps ops).q ∧
    ∀ id ∈ (runOps ops).q, id < (runOps ops).nid := by
  refine foldl_applyOp_preserves ops _ ⟨⟨?_, ?_, List.nodup_nil⟩, ?_⟩
  · intro k hk
    simp at hk
  · intro j hj hj0
    simp at hj
  · intro id hmem
    simp at hmem

/-! ### `SetWithTTL` -/

theorem setTTLBlockMem_spec (now gttl : Int) (m : Mem) (id : ItemId) :
    (∀ x, x ≠ id → setTTLBlockMem now gttl m id x = m x) ∧
    ((setTTLBlockMem now gttl m id) id).key = (m id).key ∧
    ((setTTLBlockMem now gttl m id) id).data = (m id).data ∧
    ((setTTLBlockMem now gttl m id) id).queueIndex = (m id).queueIndex ∧
    ((setTTLBlockMem now gttl m id) id).TTL =
      (if 0 < gttl ∧ (m id).TTL = 0 then gttl else (m id).TTL) ∧
    ((setTTLBlockMem now gttl m id) id).ExpireAt =
      (if 0 ≤ (m id).TTL ∧ (0 < (m id).TTL ∨ 0 < gttl) then
        now + (if 0 < gttl ∧ (m id).TTL = 0 then gttl else (m id).TTL)
      else (m id).ExpireAt) := by
  unfold setTTLBlockMem
  by_cases helig : 0 ≤ (m id).TTL ∧ (0 < (m id).TTL ∨ 0 < gttl)
  · by_cases hpromo : 0 < gttl ∧ (m id).TTL = 0
    · simp only [if_pos helig, if_pos hpromo, memSet_same]
      refine ⟨fun x hx => by rw [memSet_ne _ _ _ hx, memSet_ne _ _ _ hx], ?_⟩
      unfold Item.touch
      simp [hpromo.1]
    · have h1 := helig.1
      have hT : 0 < (m id).TTL := by
        rcases helig.2 with h2 | h2
        · exact h2
        · by_cases hz : (m id).TTL = 0
          · exact absurd ⟨h2, hz⟩ hpromo
          · omega
      simp only [if_pos helig, if_neg hpromo, memSet_same]
      refine ⟨fun x hx => by rw [memSet_ne _ _ _ hx], ?_⟩
      unfold Item.touch
      simp [hT]
  · have hnp : ¬ (0 < gttl ∧ (m id).TTL = 0) := by
      intro hc
      exact helig ⟨by omega, Or.inr hc.1⟩
    simp only [if_neg helig, if_neg hnp]
    simp

theorem wfPQ_congr_mem (m m' : Mem) (q : List ItemId)
    (hagree : ∀ x, x ∈ q → m' x = m x) (hw : wfPQ m q) : wfPQ m' q := by
  obtain ⟨hpos, hheap, hnd⟩ := hw
  refine ⟨?_, ?_, hnd⟩
  · intro k hk
    rw [hagree _ (idAt_mem q hk)]
    exact hpos k hk
  · intro j hj hj0
    rw [hagree _ (idAt_mem q hj), hagree _ (idAt_mem q (by have := par_lt hj0; omega))]
    exact hheap j hj hj0

theorem newItem_fields (now : Int) (key : String) (data ttl : Int) :
    (newItem now key data ttl).key = key ∧ (newItem now key data ttl).data = data ∧
    (newItem now key data ttl).TTL = ttl ∧ (newItem now key data ttl).queueIndex = 0 ∧
    (newItem now key data ttl).ExpireAt = (if 0 < ttl then now + ttl else 0) := by
  unfold newItem
  refine ⟨(touch_fields _ _).1, (touch_fields _ _).2.1, (touch_fields _ _).2.2.1,
    (touch_fields _ _).2.2.2.1, ?_⟩
  rw [(touch_fields _ _).2.2.2.2]

theorem SetWithTTL_existing (now : Int) (c : CacheState) (key : String) (data ttl : Int)
    (id : ItemId) (hwf : wfCache c) (h : mapGet c.items key = some id)
    (he : (c.mem id).expired now = false) :
    (SetWithTTL now c key data ttl).2 = false ∧
    ((SetWithTTL now c key data ttl).1).items = c.items ∧
    ((SetWithTTL now c key data ttl).1).nextId = c.nextId ∧
    (((SetWithTTL now c key data ttl).1).pqItems).Perm c.pqItems ∧
    wfPQ ((SetWithTTL now c key data ttl).1).mem
      ((SetWithTTL now c key data ttl).1).pqItems ∧
    ((((SetWithTTL now c key data ttl).1).mem) id).data = data ∧
    ((((SetWithTTL now c key data ttl).1).mem) id).key = (c.mem id).key ∧
    ((((SetWithTTL now c key data ttl).1).mem) id).TTL =
      (if 0 < c.ttl ∧ ttl = 0 then c.ttl else ttl) := by
  -- facts about the intermediate state left by GetItem
  have hc1 : (GetItem now c key).1 = some id ∧
      ((GetItem now c key).2.2).items = c.items ∧
      ((GetItem now c key).2.2).ttl = c.ttl ∧
      ((GetItem now c key).2.2).nextId = c.nextId ∧
      wfPQ ((GetItem now c key).2.2).mem ((GetItem now c key).2.2).pqItems ∧
      (((GetItem now c key).2.2).pqItems).Perm c.pqItems ∧
      (∀ x, (((GetItem now c key).2.2).mem x).key = (c.mem x).key ∧
        (((GetItem now c key).2.2).mem x).data = (c.mem x).data) := by
    by_cases helig : 0 ≤ (c.mem id).TTL ∧ (0 < (c.mem id).TTL ∨ 0 < c.ttl)
    · obtain ⟨g1, g2, g3, g4, g5, g6, g7, g8, g9, g10, g11, g12⟩ :=
        GetItem_hit_elig now c key id hwf h he helig
      exact ⟨g1, g2, g3, g6, g7, g8, g9⟩
    · rw [GetItem_hit_inelig now c key id h he helig]
      exact ⟨rfl, rfl, rfl, rfl, hwf.1, List.Perm.refl _, fun x => ⟨rfl, rfl⟩⟩
  obtain ⟨hc1fst, hc1items, hc1ttl, hc1nid, hc1wf, hc1perm, hc1kd⟩ := hc1
  have hres : SetWithTTL now c key data ttl =
      ({ (GetItem now c key).2.2 with
          mem := (pqUpdateItem
            (setTTLBlockMem now ((GetItem now c key).2.2).ttl
              (memSet ((GetItem now c key).2.2).mem id
                { ((GetItem now c key).2.2).mem id with data := data, TTL := ttl }) id)
            ((GetItem now c key).2.2).pqItems id).1,
          pqItems := (pqUpdateItem
            (setTTLBlockMem now ((GetItem now c key).2.2).ttl
              (memSet ((GetItem now c key).2.2).mem id
                { ((GetItem now c key).2.2).mem id with data := data, TTL := ttl }) id)
            ((GetItem now c key).2.2).pqItems id).2 }, false) := by
    unfold SetWithTTL
    dsimp only
    rw [hc1fst]
    rfl
  rw [hres]
  -- abbreviations
  obtain ⟨b0, b1, b2, b3, b4, b5⟩ := setTTLBlockMem_spec now ((GetItem now c key).2.2).ttl
    (memSet ((GetItem now c key).2.2).mem id
      { ((GetItem now c key).2.2).mem id with data := data, TTL := ttl }) id
  have hidmem : id ∈ ((GetItem now c key).2.2).pqItems := by
    have h1 : id ∈ c.pqItems := (hwf.2.2.1 (key, id) (mapGet_mem h)).1
    exact hc1perm.mem_iff.mpr h1
  obtain ⟨i, hi, hat⟩ := mem_pq_position _ id hidmem
  obtain ⟨f1, f2, f3, f4, f5⟩ := pqUpdateItem_spec ((GetItem now c key).2.2).mem
    (setTTLBlockMem now ((GetItem now c key).2.2).ttl
      (memSet ((GetItem now c key).2.2).mem id
        { ((GetItem now c key).2.2).mem id with data := data, TTL := ttl }) id)
    ((GetItem now c key).2.2).pqItems id i hc1wf hi hat
    (fun x hx => by
      rw [b0 x hx, memSet_ne _ _ _ hx])
    (fun x => by
      by_cases hx : x = id
      · subst hx
        rw [b3, memSet_same]
      · rw [b0 x hx, memSet_ne _ _ _ hx])
  have hndP := f3.nodup_iff.mpr hc1wf.2.2
  refine ⟨rfl, hc1items, hc1nid, f3.trans hc1perm, ?_, ?_, ?_, ?_⟩
  · refine wfPQ_of_key _ _ f1 ?_ hndP
    show heapKeyUpTo _ _ ((pqUpdateItem _ _ _).2).length
    rw [f5]
    exact f2
  · show ((pqUpdateItem _ _ _).1 id).data = data
    rw [(f4 id).2.1, b2, memSet_same]
  · show ((pqUpdateItem _ _ _).1 id).key = (c.mem id).key
    rw [(f4 id).1, b1, memSet_same]
    exact (hc1kd id).1
  · show ((pqUpdateItem _ _ _).1 id).TTL = _
    rw [(f4 id).2.2.1, b4, memSet_same]
    rw [hc1ttl]

theorem SetWithTTL_new (now : Int) (c : CacheState) (key : String) (data ttl : Int)
    (hwf : wfCache c) (h : mapGet c.items key = none) :
    (SetWithTTL now c key data ttl).2 = true ∧
    ((SetWithTTL now c key data ttl).1).items = mapSet c.items key c.nextId ∧
    mapGet ((SetWithTTL now c key data ttl).1).items key = some c.nextId ∧
    ((SetWithTTL now c key data ttl).1).nextId = c.nextId + 1 ∧
    (((SetWithTTL now c key data ttl).1).pqItems).Perm (c.nextId :: c.pqItems) ∧
    wfPQ ((SetWithTTL now c key data ttl).1).mem
      ((SetWithTTL now c key data ttl).1).pqItems ∧
    ((((SetWithTTL now c key data ttl).1).mem) c.nextId).key = key ∧
    ((((SetWithTTL now c key data ttl).1).mem) c.nextId).data = data ∧
    ((((SetWithTTL now c key data ttl).1).mem) c.nextId).TTL =
      (if 0 < c.ttl ∧ ttl = 0 then c.ttl else ttl) := by
  have hmiss := GetItem_miss now c key h
  have hres : SetWithTTL now c key data ttl =
      ({ c with
          mem := (pqPush
            (setTTLBlockMem now c.ttl (memSet c.mem c.nextId (newItem now key data ttl))
              c.nextId)
            c.pqItems c.nextId).1,
          pqItems := (pqPush
            (setTTLBlockMem now c.ttl (memSet c.mem c.nextId (newItem now key data ttl))
              c.nextId)
            c.pqItems c.nextId).2,
          items := mapSet c.items key c.nextId,
          nextId := c.nextId + 1 }, true) := by
    unfold SetWithTTL
    dsimp only
    rw [hmiss]
    rfl
  rw [hres]
  obtain ⟨b0, b1, b2, b3, b4, b5⟩ := setTTLBlockMem_spec now c.ttl
    (memSet c.mem c.nextId (newItem now key data ttl)) c.nextId
  have hfresh : c.nextId ∉ c.pqItems :=
    fun hmem => absurd (hwf.2.1 c.nextId hmem) (Nat.lt_irrefl c.nextId)
  have hwb : wfPQ (setTTLBlockMem now c.ttl (memSet c.mem c.nextId (newItem now key data ttl))
      c.nextId) c.pqItems := by
    refine wfPQ_congr_mem c.mem _ c.pqItems ?_ hwf.1
    intro x hx
    have hxne : x ≠ c.nextId := fun he => hfresh (he ▸ hx)
    rw [b0 x hxne, memSet_ne _ _ _ hxne]
  obtain ⟨p1, p2, p3, p4⟩ := pqPush_spec _ c.pqItems c.nextId hwb hfresh
  obtain ⟨n1, n2, n3, n4, n5⟩ := newItem_fields now key data ttl
  refine ⟨rfl, rfl, ?_, rfl, p2, p1, ?_, ?_, ?_⟩
  · show mapGet (mapSet c.items key c.nextId) key = some c.nextId
    exact mapGet_mapSet_self c.items key c.nextId
  · show ((pqPush _ _ _).1 c.nextId).key = key
    rw [(p3 c.nextId).1, b1, memSet_same, n1]
  · show ((pqPush _ _ _).1 c.nextId).data = data
    rw [(p3 c.nextId).2.1, b2, memSet_same, n2]
  · show ((pqPush _ _ _).1 c.nextId).TTL = _
    rw [(p3 c.nextId).2.2.1, b4, memSet_same, n3]

/-! ### Claim theorems -/

/-- C3: the Expiration Index's ordering comparison: if `a.expire_at` is unset
(zero), `a` is not less than `b`; else if `b.expire_at` is unset, `a` is less
than `b`; else `a` is less than `b` iff `a.expire_at < b.expire_at`; two unset
entries are mutually not-less-than each other, and unset entries sort as less
urgent than every set entry. -/
theorem claim_C3 (a b : Item) :
    (a.ExpireAt = 0 → itemLess a b = false) ∧
    (a.ExpireAt ≠ 0 → b.ExpireAt = 0 → itemLess a b = true) ∧
    (a.ExpireAt ≠ 0 → b.ExpireAt ≠ 0 →
      (itemLess a b = true ↔ a.ExpireAt < b.ExpireAt)) ∧
    (a.ExpireAt = 0 → b.ExpireAt = 0 → itemLess a b = false ∧ itemLess b a = false) := by
  unfold itemLess
  by_cases ha : a.ExpireAt = 0 <;> by_cases hb : b.ExpireAt = 0 <;>
    simp [ha, hb]

/-- Witness for C3 at a concrete pair of entries. -/
theorem claim_C3_witness :
    itemLess { key := "u", data := 0, TTL := 1, ExpireAt := 0, queueIndex := 0 }
      { key := "v", data := 0, TTL := 1, ExpireAt := 5, queueIndex := 1 } = false :=
  (claim_C3 _ _).1 rfl

/-- C4: after any sequence of push/pop/remove/update operations (remove and
update applied only to entries currently tracked by the index), the heap
property over `expire_at` with the §4.1 tie-break holds, the minimum entry is
at the head, and every tracked entry's recorded `queueIndex` equals its true
array index. -/
theorem claim_C4 (ops : List PQOp) :
    heapOK (runOps ops).mem (runOps ops).q ∧
    posOK (runOps ops).mem (runOps ops).q ∧
    ∀ i, i < (runOps ops).q.length →
      itemLess ((runOps ops).mem (idAt (runOps ops).q i))
        ((runOps ops).mem (idAt (runOps ops).q 0)) = false := by
  obtain ⟨⟨hpos, hheap, hnd⟩, _⟩ := runOps_wf ops
  refine ⟨hheap, hpos, ?_⟩
  intro i hi
  rw [itemLess_false_iff]
  exact heapKeyUpTo_min _ _ _ (wfPQ_key _ _ ⟨hpos, hheap, hnd⟩) i hi

/-- C5 counterexample: with the head entry due exactly at the current instant
(time-until-head is zero, hence non-positive), the computed sleep duration is
`0`, not the very small positive value the claim requires for non-positive
remaining times. -/
theorem claim_C5_counterexample :
    (memDue (idAt [0] 0)).ExpireAt - 100 = 0 ∧
    computeSleepTime 100 memDue [0] 0 = 0 ∧
    ¬ (0 < computeSleepTime 100 memDue [0] 0) := by
  refine ⟨by decide, by decide, by decide⟩

/-- C5 (amended): with a non-empty index and a set head deadline, the sleep
duration is the time until the head's `expire_at`, replaced by one microsecond
only when that time is strictly negative (an exactly-zero remaining time is
used as-is), then capped at the global TTL when one is configured; with an
unset head deadline (and a positive clock) it is an hour, again capped at the
global TTL when configured; with an empty index it is the global TTL if
configured, else an hour. -/
theorem claim_C5 (now : Int) (m : Mem) (q : List ItemId) (gttl : Int) :
    (0 < q.length → (m (idAt q 0)).ExpireAt ≠ 0 →
      (0 ≤ (m (idAt q 0)).ExpireAt - now →
        computeSleepTime now m q gttl =
          (if 0 < gttl then goMin ((m (idAt q 0)).ExpireAt - now) gttl
           else (m (idAt q 0)).ExpireAt - now)) ∧
      ((m (idAt q 0)).ExpireAt - now < 0 →
        computeSleepTime now m q gttl =
          (if 0 < gttl then goMin microsecondNS gttl else microsecondNS))) ∧
    (0 < q.length → (m (idAt q 0)).ExpireAt = 0 → 0 < now →
      computeSleepTime now m q gttl =
        (if 0 < gttl then goMin hourNS gttl else hourNS)) ∧
    (q.length = 0 →
      computeSleepTime now m q gttl = (if 0 < gttl then gttl else hourNS)) := by
  unfold computeSleepTime
  refine ⟨?_, ?_, ?_⟩
  · intro h0 hset
    rw [if_pos h0]
    dsimp only
    have h1 : ¬ ((m (idAt q 0)).ExpireAt - now < 0 ∧ (m (idAt q 0)).ExpireAt = 0) :=
      fun hc => hset hc.2
    constructor
    · intro hd
      have h2 : ¬ ((m (idAt q 0)).ExpireAt - now < 0) := by omega
      rw [if_neg h1, if_neg h2]
    · intro hd
      rw [if_neg h1, if_pos hd]
  · intro h0 hunset hnow
    rw [if_pos h0]
    dsimp only
    have h1 : (m (idAt q 0)).ExpireAt - now < 0 ∧ (m (idAt q 0)).ExpireAt = 0 :=
      ⟨by omega, hunset⟩
    rw [if_pos h1]
  · intro h0
    have h1 : ¬ (0 < q.length) := by omega
    rw [if_neg h1]

/-- Witness for C5 at a concrete state: head due in 10ns, global TTL 7ns. -/
theorem claim_C5_witness : computeSleepTime 90 memDue [0] 7 = 7 :=
  (((claim_C5 90 memDue [0] 7).1 (by decide) (by decide)).1 (by decide)).trans (by decide)

/-- C6 counterexample: an entry with positive TTL but unset (zero)
`expire_at` is reported expired at instant 100 — the claim predicts
not-expired because `expire_at` is not set. -/
theorem claim_C6_counterexample :
    Item.expired 100 { key := "p", data := 0, TTL := 5, ExpireAt := 0, queueIndex := 0 } = true ∧
    ({ key := "p", data := 0, TTL := 5, ExpireAt := 0, queueIndex := 0 } : Item).ExpireAt = 0 ∧
    (0 : Int) < ({ key := "p", data := 0, TTL := 5, ExpireAt := 0, queueIndex := 0 } : Item).TTL := by
  refine ⟨by decide, by decide, by decide⟩

/-- C6 (amended): `is_expired` returns false whenever `ttl ≤ 0`; otherwise it
returns true exactly when `expire_at` lies before the current instant — the
unset zero instant lies before any positive clock reading and therefore also
counts as expired. -/
theorem claim_C6 (it : Item) (now : Int) :
    (it.TTL ≤ 0 → it.expired now = false) ∧
    (0 < it.TTL → (it.expired now = true ↔ it.ExpireAt < now)) := by
  unfold Item.expired
  constructor
  · intro h
    rw [if_pos h]
  · intro h
    rw [if_neg (by omega)]
    simp

/-- Witness for C6 at a concrete expired entry. -/
theorem claim_C6_witness :
    Item.expired 100 { key := "q", data := 0, TTL := 5, ExpireAt := 7, queueIndex := 0 } = true :=
  ((claim_C6 _ 100).2 (by decide)).mpr (by decide)

/-- C7: `touch` with `ttl > 0` sets `expire_at` to `now + ttl`; with
`ttl ≤ 0` it is a no-op, so an entry with no deadline acquires none. -/
theorem claim_C7 (it : Item) (now : Int) :
    (0 < it.TTL → Item.touch now it = { it with ExpireAt := now + it.TTL }) ∧
    (it.TTL ≤ 0 → Item.touch now it = it) ∧
    (it.TTL ≤ 0 → it.ExpireAt = 0 → (Item.touch now it).ExpireAt = 0) := by
  unfold Item.touch
  refine ⟨?_, ?_, ?_⟩
  · intro h
    rw [if_pos h]
  · intro h
    rw [if_neg (by omega)]
  · intro h h0
    rw [if_neg (by omega)]
    exact h0

/-- Witness for C7 at a concrete never-expiring entry. -/
theorem claim_C7_witness :
    Item.touch 10 { key := "n", data := 0, TTL := -1, ExpireAt := 0, queueIndex := 0 } =
      { key := "n", data := 0, TTL := -1, ExpireAt := 0, queueIndex := 0 } :=
  (claim_C7 _ 10).2.1 (by decide)

/-- C8: `pop` on an empty index returns the `nil` result and leaves the state
unchanged rather than failing; on a non-empty well-formed index it removes
and returns the head, which is minimal in the §4.1 order among all entries,
and the remaining entries still satisfy the heap property (and position
tracking). -/
theorem claim_C8 (m : Mem) (q : List ItemId) (hw : wfPQ m q) :
    (q = [] → pqPop m q = (none, m, q)) ∧
    (q ≠ [] →
      (pqPop m q).1 = some (idAt q 0) ∧
      (∀ k, k < q.length → itemLess (m (idAt q k)) (m (idAt q 0)) = false) ∧
      (idAt q 0 :: (pqPop m q).2.2).Perm q ∧
      heapOK (pqPop m q).2.1 (pqPop m q).2.2 ∧
      posOK (pqPop m q).2.1 (pqPop m q).2.2) := by
  obtain ⟨hemp, hne⟩ := pqPop_spec m q hw
  refine ⟨hemp, ?_⟩
  intro h
  obtain ⟨n1, n2, n3, n4, n5, n6⟩ := hne h
  refine ⟨n1, ?_, n3, n2.2.1, n2.1⟩
  intro k hk
  rw [itemLess_false_iff]
  exact n6 k hk

/-- Witness for C8 at a concrete two-entry heap. -/
theorem claim_C8_witness : (pqPop memPop [0, 1]).1 = some 0 :=
  (((claim_C8 memPop [0, 1] (by decide)).2 (by decide)).1).trans (by decide)

/-- C1 counterexample: key `"a"` is already present in the store's map, yet
`SetWithTTL` (because the entry is time-expired, so the internal lookup
reports it as absent) constructs a fresh entry, fires the new-item
notification, and pushes a second index entry for the key — the stale entry
stays in the index. -/
theorem claim_C1_counterexample :
    mapGet cacheExpiredA.items "a" = some 0 ∧
    (SetWithTTL 100 cacheExpiredA "a" 9 5).2 = true ∧
    ((SetWithTTL 100 cacheExpiredA "a" 9 5).1).pqItems.length = 2 ∧
    (((SetWithTTL 100 cacheExpiredA "a" 9 5).1).mem
      (idAt ((SetWithTTL 100 cacheExpiredA "a" 9 5).1).pqItems 0)).key = "a" ∧
    (((SetWithTTL 100 cacheExpiredA "a" 9 5).1).mem
      (idAt ((SetWithTTL 100 cacheExpiredA "a" 9 5).1).pqItems 1)).key = "a" := by
  refine ⟨by decide, by decide, by decide, by decide, by decide⟩

/-- C1 (amended): for a call to `set`/`set_with_ttl` with a key whose map
entry is present and **not time-expired**, the store replaces that entry's
value and TTL in place — same identity, same binding, the index's entries are
only permuted (never gaining a second entry for the key) and stay well-formed
— and no new-item notification fires.  Only when the internal lookup reports
the key as not existing (key absent — or present but already time-expired, in
which case the stale entry remains in the index) is a fresh entry constructed,
inserted into both the map and the index, and the new-item notification
invoked. -/
theorem claim_C1 (now : Int) (c : CacheState) (key : String) (data ttl : Int)
    (hwf : wfCache c) :
    (∀ id, mapGet c.items key = some id → (c.mem id).expired now = false →
      (SetWithTTL now c key data ttl).2 = false ∧
      mapGet ((SetWithTTL now c key data ttl).1).items key = some id ∧
      ((SetWithTTL now c key data ttl).1).nextId = c.nextId ∧
      (((SetWithTTL now c key data ttl).1).pqItems).Perm c.pqItems ∧
      wfPQ ((SetWithTTL now c key data ttl).1).mem
        ((SetWithTTL now c key data ttl).1).pqItems ∧
      ((((SetWithTTL now c key data ttl).1).mem) id).data = data ∧
      ((((SetWithTTL now c key data ttl).1).mem) id).TTL =
        (if 0 < c.ttl ∧ ttl = 0 then c.ttl else ttl)) ∧
    (mapGet c.items key = none →
      (SetWithTTL now c key data ttl).2 = true ∧
      mapGet ((SetWithTTL now c key data ttl).1).items key = some c.nextId ∧
      ((SetWithTTL now c key data ttl).1).nextId = c.nextId + 1 ∧
      (((SetWithTTL now c key data ttl).1).pqItems).Perm (c.nextId :: c.pqItems) ∧
      wfPQ ((SetWithTTL now c key data ttl).1).mem
        ((SetWithTTL now c key data ttl).1).pqItems ∧
      ((((SetWithTTL now c key data ttl).1).mem) c.nextId).key = key ∧
      ((((SetWithTTL now c key data ttl).1).mem) c.nextId).data = data ∧
      ((((SetWithTTL now c key data ttl).1).mem) c.nextId).TTL =
        (if 0 < c.ttl ∧ ttl = 0 then c.ttl else ttl)) := by
  constructor
  · intro id h he
    obtain ⟨e1, e2, e3, e4, e5, e6, e7, e8⟩ :=
      SetWithTTL_existing now c key data ttl id hwf h he
    refine ⟨e1, ?_, e3, e4, e5, e6, e8⟩
    rw [e2]
    exact h
  · intro h
    obtain ⟨n1, n2, n3, n4, n5, n6, n7, n8, n9⟩ := SetWithTTL_new now c key data ttl hwf h
    exact ⟨n1, n3, n4, n5, n6, n7, n8, n9⟩

/-- Witness for C1 at a concrete present-and-alive key. -/
theorem claim_C1_witness : (SetWithTTL 100 cacheAliveA "a" 9 5).2 = false :=
  ((claim_C1 100 cacheAliveA "a" 9 5 (by decide)).1 0 (by decide) (by decide)).1

/-- C9: `Remove` on a present key deletes the entry from both the key map and
the Expiration Index (which loses exactly that entry and stays well-formed)
and reports `true`; on an absent key it reports `false` and returns the state
completely unchanged — never a fault. -/
theorem claim_C9 (c : CacheState) (key : String) (hwf : wfCache c) :
    (mapGet c.items key = none → Remove c key = (false, c)) ∧
    (∀ id, mapGet c.items key = some id →
      (Remove c key).1 = true ∧
      mapGet ((Remove c key).2).items key = none ∧
      (id :: ((Remove c key).2).pqItems).Perm c.pqItems ∧
      id ∉ ((Remove c key).2).pqItems ∧
      wfPQ ((Remove c key).2).mem ((Remove c key).2).pqItems) := by
  constructor
  · intro h
    unfold Remove
    rw [h]
  · intro id h
    have hkeyid : (c.mem id).key = key := (hwf.2.2.1 (key, id) (mapGet_mem h)).2
    have hidmem : id ∈ c.pqItems := (hwf.2.2.1 (key, id) (mapGet_mem h)).1
    obtain ⟨i, hi, hat⟩ := mem_pq_position c.pqItems id hidmem
    have hres : Remove c key = (true,
        { c with items := mapDelete c.items (c.mem id).key,
                 mem := (pqRemoveItem c.mem c.pqItems id).1,
                 pqItems := (pqRemoveItem c.mem c.pqItems id).2 }) := by
      unfold Remove
      rw [h]
    rw [hres]
    obtain ⟨r1, r2, r3, r4, r5⟩ := pqRemoveItem_spec c.mem c.pqItems id i hwf.1 hi hat
    refine ⟨rfl, ?_, r2, r5, r1⟩
    show mapGet (mapDelete c.items (c.mem id).key) key = none
    rw [hkeyid]
    exact mapGet_mapDelete_self c.items key

/-- Witness for C9 at a concrete present key. -/
theorem claim_C9_witness : (Remove cacheAliveA "a").1 = true :=
  ((claim_C9 cacheAliveA "a" (by decide)).2 0 (by decide)).1

/-- C10: `get_ttl` is not read-only — on a hit for an entry carrying the
"use global" sentinel under a positive global TTL (extension on read
enabled), it promotes the entry's TTL to the global TTL, re-touches the entry
so its deadline becomes `now + global`, mutates the state exactly as `get`'s
lookup does, and the TTL it returns is the post-promotion value, different
from the zero the entry carried before the call. -/
theorem claim_C10 (now : Int) (c : CacheState) (key : String) (id : ItemId)
    (hwf : wfCache c) (h : mapGet c.items key = some id)
    (he : (c.mem id).expired now = false)
    (h0 : (c.mem id).TTL = 0) (hg : 0 < c.ttl) (hsk : c.skipTTLExtension = false) :
    (GetTTL now c key).1 = c.ttl ∧
    (GetTTL now c key).2.1 = true ∧
    (GetTTL now c key).1 ≠ (c.mem id).TTL ∧
    (((GetTTL now c key).2.2).mem id).TTL = c.ttl ∧
    (((GetTTL now c key).2.2).mem id).ExpireAt = now + c.ttl ∧
    (GetTTL now c key).2.2 = (GetItem now c key).2.2 := by
  have helig : 0 ≤ (c.mem id).TTL ∧ (0 < (c.mem id).TTL ∨ 0 < c.ttl) :=
    ⟨by omega, Or.inr hg⟩
  obtain ⟨g1, g2, g3, g4, g5, g6, g7, g8, g9, g10, g11, g12⟩ :=
    GetItem_hit_elig now c key id hwf h he helig
  have hres : GetTTL now c key =
      ((((GetItem now c key).2.2).mem id).TTL, true, (GetItem now c key).2.2) := by
    unfold GetTTL
    dsimp only
    rw [g1]
  rw [hres]
  have hT : (((GetItem now c key).2.2).mem id).TTL = c.ttl := by
    rw [g11, if_pos ⟨hg, h0⟩]
  refine ⟨hT, rfl, ?_, hT, ?_, rfl⟩
  · rw [hT, h0]
    omega
  · rw [g12, h0, hsk]
    have hc1 : 0 < c.ttl ∧ (0 : Int) = 0 := ⟨hg, rfl⟩
    rw [if_pos hc1]
    have hc2 : (false = false) ∧ (0 : Int) < c.ttl := ⟨rfl, hg⟩
    rw [if_pos hc2]

/-- Witness for C10 at a concrete "use global" entry under global TTL 500. -/
theorem claim_C10_witness : (GetTTL 100 cacheGlobal "g").1 = 500 :=
  (claim_C10 100 cacheGlobal "g" 0 (by decide) (by decide) (by decide) (by decide)
    (by decide) (by decide)).1.trans (by decide)

/-- C2: the eviction pass can read the index slice out of bounds, a Go
runtime panic.  Concretely, from the well-formed two-entry state `memSweep`
(entry `"A"` expired with TTL 1000; entry `"P"` with TTL 5 but unset
`expire_at`, a state reachable through global-TTL promotion under
`skipTTLExtension`), with a conditional-eviction callback vetoing `"A"` and
evicting `"P"`, the pass vetoes at cursor 0, advances, evicts at cursor 1
(the last position), and then evaluates `items[1]` on the now one-element
slice — position 1 of a length-1 index. -/
theorem claim_C2 :
    wfPQ memSweep [0, 1] ∧
    sweepEvict 100 (some sweepCb) 10 memSweep [("A", 0), ("P", 1)] [0, 1] =
      PassOutcome.oobAccess 1 1 := by
  exact ⟨by decide, by rfl⟩

end TTLCache
